import Mathlib

/-!
Verification development for a tabular temporal-difference learning core
(SARSA, Q-Learning, Expected SARSA) over a finite, enumerable MDP
environment, together with the WindyGridWorld environment it is run on.

The embedding is shallow:
* Python dictionaries keyed by `(state, action)` become total functions
  `S × A → ℚ` updated pointwise with `upd`; the construction-time key
  enumeration is kept explicitly where claims speak about it.
* Floating point numbers become `ℚ`.
* The global numpy random source becomes an explicit stream
  `rng : ℕ → ℚ` of uniform draws together with a cursor `k : ℕ` that is
  threaded through the computation; `np.random.choice(actions, p=ps)`
  becomes the categorical inverse-CDF selection `pick_index` applied to
  one draw.
* Python exceptions (`ValueError` from `np.random.choice` on an empty
  list, `ValueError` from `max` on an empty sequence) become `none`, and
  `Option` is threaded through every caller, mirroring exception
  propagation.
* The non-terminating `while` loop of the episode driver is embedded
  with an explicit fuel parameter; exhausting the fuel also yields
  `none`.  The terminal test is performed before the fuel is consumed,
  exactly as the Python loop tests its condition at the top.
-/

set_option linter.unusedSectionVars false

namespace TDLearning

/-- Pointwise update of a table: the embedding of `d[key] = v` on a
Python dictionary viewed as a total function. -/
def upd {K : Type} [DecidableEq K] (f : K → ℚ) (k : K) (v : ℚ) : K → ℚ :=
  fun x => if x = k then v else f x

/-- The abstract environment interface (`ObservableEnvironment` in the
source): a finite state enumeration, per-state legal actions, a
transition/reward function and a terminal predicate.  The only concrete
environment in the repository (`WindyGridWorld`) has a deterministic
`execute_action`, so the transition function is embedded as a pure
function. -/
structure ObservableEnvironment (S A : Type) where
  get_states : List S
  get_possible_actions : S → List A
  execute_action : S → A → S × ℚ
  is_terminal_state : S → Bool

/-- The mutable state of a `SarsaAgent` (shared by the two subclasses):
hyperparameters plus the Q and policy tables. -/
structure Agent (S A : Type) where
  discount_factor : ℚ
  alpha : ℚ
  epsilon : ℚ
  Q : S × A → ℚ
  policy : S × A → ℚ

/-- The iteration order of a CPython 2.7 `dict` whose keys were
inserted from the given list.  `_find_best_action` builds a dict
comprehension keyed by actions and takes `max` over `QA.items()`, and
in Python 2.7 `items()` yields the entries in hash-slot order, not in
insertion order; this class supplies that order for an action type,
together with the fact that `items()` yields exactly the stored keys. -/
class PyDict (A : Type) where
  items_order : List A → List A
  mem_items_order : ∀ (l : List A) (a : A), a ∈ items_order l ↔ a ∈ l

variable {S A : Type} [DecidableEq S] [DecidableEq A] [PyDict A]

/-- One iteration of the construction loop of `SarsaAgent.__init__`:
for one `state`, write `Q[(state, action)] = 0.` and
`policy[(state, action)] = 1. / num_actions` for every legal action. -/
def init_step (env : ObservableEnvironment S A)
    (t : ((S × A) → ℚ) × ((S × A) → ℚ)) (state : S) :
    ((S × A) → ℚ) × ((S × A) → ℚ) :=
  let actions := env.get_possible_actions state
  let num_actions := actions.length
  actions.foldl (fun t action =>
    (upd t.1 (state, action) 0, upd t.2 (state, action) (1 / (num_actions : ℚ)))) t

/-- The Q/policy tables produced by `SarsaAgent.__init__`, filled by
iterating over `env.get_states()`. -/
def init_tables (env : ObservableEnvironment S A) :
    ((S × A) → ℚ) × ((S × A) → ℚ) :=
  env.get_states.foldl (init_step env) (fun _ => 0, fun _ => 0)

/-- `SarsaAgent.__init__(env, discount_factor, alpha, epsilon)`. -/
def init_agent (env : ObservableEnvironment S A)
    (discount_factor alpha epsilon : ℚ) : Agent S A :=
  { discount_factor := discount_factor, alpha := alpha, epsilon := epsilon,
    Q := (init_tables env).1, policy := (init_tables env).2 }

/-- Inverse-CDF categorical selection: the index drawn by
`np.random.choice(xs, p=ps)` from one uniform draw `u`.  `none` models
the `ValueError` raised on an empty list (and an out-of-distribution
draw, which cannot occur when `ps` sums to 1 and `0 ≤ u < 1`). -/
def pick_index : List ℚ → ℚ → Option ℕ
  | [], _ => none
  | p :: ps, u => if u < p then some 0 else (pick_index ps (u - p)).map (fun i => i + 1)

/-- `SarsaAgent._choose_action(S)`: read the legal actions, read their
probabilities from the policy table, and draw one action from that
categorical distribution using the uniform draw `u`. -/
def choose_action (env : ObservableEnvironment S A) (ag : Agent S A)
    (s : S) (u : ℚ) : Option A :=
  let actions := env.get_possible_actions s
  let ps := actions.map (fun a => ag.policy (s, a))
  (pick_index ps u).bind (fun i => actions[i]?)

/-- Python's `max(..., key=itemgetter(1))` over a nonempty list of
`(action, value)` pairs: the first pair attaining the maximal value
(later pairs replace the current best only on a strict increase). -/
def max_by_value : (A × ℚ) → List (A × ℚ) → A × ℚ :=
  fun x xs => xs.foldl (fun best y => if best.2 < y.2 then y else best) x

/-- `SarsaAgent._find_best_action(state)`: argmax of `Q[state, -]` over
the legal actions.  The source builds the dict comprehension
`QA = {action: Q[(state, action)] for action in actions}` and takes
`max(QA.items(), key=itemgetter(1))[0]`; in Python 2.7, `items()`
yields the entries in the dict's hash-slot order (`PyDict.items_order`),
so ties among maximal Q-values break in favour of the first action in
that order — not in the `get_possible_actions` enumeration order.
`none` models the `ValueError` raised by `max` on an empty sequence. -/
def find_best_action (env : ObservableEnvironment S A) (ag : Agent S A)
    (state : S) : Option A :=
  match (PyDict.items_order (env.get_possible_actions state)).map
      (fun action => (action, ag.Q (state, action))) with
  | [] => none
  | x :: xs => some (max_by_value x xs).1

/-- The loop body of `SarsaAgent._update_policy`, iterating over the
remaining states: set every legal action of `state` to
`epsilon / num_actions`, then add `1 - epsilon` to the best action. -/
def update_policy_go (env : ObservableEnvironment S A) (ag : Agent S A) :
    List S → ((S × A) → ℚ) → Option ((S × A) → ℚ)
  | [], pol => some pol
  | state :: rest, pol =>
    let actions := env.get_possible_actions state
    let num_actions := actions.length
    match find_best_action env ag state with
    | none => none
    | some best_action =>
      let pol1 := actions.foldl (fun pol action =>
        upd pol (state, action) (ag.epsilon / (num_actions : ℚ))) pol
      let pol2 := upd pol1 (state, best_action)
        (pol1 (state, best_action) + (1 - ag.epsilon))
      update_policy_go env ag rest pol2

/-- `SarsaAgent._update_policy()`: recompute the epsilon-greedy policy
table at every state of the environment; only the policy table changes. -/
def update_policy (env : ObservableEnvironment S A) (ag : Agent S A) :
    Option (Agent S A) :=
  (update_policy_go env ag env.get_states ag.policy).map
    (fun pol => { ag with policy := pol })

/-- The three `_inner_learn` override variants. -/
inductive Variant
  | sarsa
  | qlearning
  | expectedSarsa
deriving DecidableEq

/-- `_inner_learn(S, A)` of the variant `v`.  The result tuple is
`(agent, S_next, A_next, k, key)` where `(S_next, A_next)` is the pair
returned to the driver, `k` is the advanced random cursor, and `key` is
a ghost record of the single `(state, action)` pair whose Q entry was
updated, used to state frame properties. -/
def inner_learn (v : Variant) (env : ObservableEnvironment S A)
    (rng : ℕ → ℚ) (ag : Agent S A) (s : S) (a : A) (k : ℕ) :
    Option (Agent S A × S × A × ℕ × (S × A)) :=
  match v with
  | .sarsa =>
    let step := env.execute_action s a
    let s_next := step.1
    let r := step.2
    match choose_action env ag s_next (rng k) with
    | none => none
    | some a_next =>
      let q := ag.Q
      let newVal := q (s, a) +
        ag.alpha * (r + ag.discount_factor * q (s_next, a_next) - q (s, a))
      some ({ ag with Q := upd q (s, a) newVal }, s_next, a_next, k + 1, (s, a))
  | .qlearning =>
    match choose_action env ag s (rng k) with
    | none => none
    | some a2 =>
      let step := env.execute_action s a2
      let s_next := step.1
      let r := step.2
      match find_best_action env ag s_next with
      | none => none
      | some a_best =>
        let q := ag.Q
        let newVal := q (s, a2) +
          ag.alpha * (r + ag.discount_factor * q (s_next, a_best) - q (s, a2))
        some ({ ag with Q := upd q (s, a2) newVal }, s_next, a2, k + 1, (s, a2))
  | .expectedSarsa =>
    let step := env.execute_action s a
    let s_next := step.1
    let r := step.2
    match choose_action env ag s_next (rng k) with
    | none => none
    | some a_next =>
      let expected_next_value := (env.get_possible_actions s_next).foldl
        (fun acc action => acc + ag.policy (s_next, action) * ag.Q (s_next, action)) 0
      let q := ag.Q
      let newVal := q (s, a) +
        ag.alpha * (r + ag.discount_factor * expected_next_value - q (s, a))
      some ({ ag with Q := upd q (s, a) newVal }, s_next, a_next, k + 1, (s, a))

/-- The body of the episode loop: `S, A = self._inner_learn(S, A)`
followed by `self._update_policy()`. -/
def learn_step (v : Variant) (env : ObservableEnvironment S A)
    (rng : ℕ → ℚ) (ag : Agent S A) (s : S) (a : A) (k : ℕ) :
    Option (Agent S A × S × A × ℕ × (S × A)) :=
  match inner_learn v env rng ag s a k with
  | none => none
  | some (ag1, s2, a2, k2, key) =>
    match update_policy env ag1 with
    | none => none
    | some ag2 => some (ag2, s2, a2, k2, key)

/-- The `while not self.env.is_terminal_state(S)` loop of
`SarsaAgent.learn`, with fuel.  The terminal test happens at the top of
every iteration (before the fuel is consumed), against the current
state.  `vis` is the ghost list of Q-updated pairs. -/
def episode_loop (v : Variant) (env : ObservableEnvironment S A)
    (rng : ℕ → ℚ) :
    ℕ → Agent S A → S → A → ℕ → List (S × A) →
    Option (Agent S A × ℕ × List (S × A))
  | 0, ag, s, _, k, vis =>
    if env.is_terminal_state s then some (ag, k, vis) else none
  | Nat.succ fuel, ag, s, a, k, vis =>
    if env.is_terminal_state s then some (ag, k, vis)
    else
      match learn_step v env rng ag s a k with
      | none => none
      | some (ag2, s2, a2, k2, key) =>
        episode_loop v env rng fuel ag2 s2 a2 k2 (vis ++ [key])

/-- `SarsaAgent.learn(num_samples, initial_state)`: for each episode,
set `S = initial_state`, draw `A = self._choose_action(S)` (note: this
happens before the terminal test), then run the episode loop.  `k` is
the random cursor and `vis` the ghost visited-pair record. -/
def learn (v : Variant) (env : ObservableEnvironment S A)
    (rng : ℕ → ℚ) (fuel : ℕ) :
    Agent S A → ℕ → S → ℕ → List (S × A) →
    Option (Agent S A × ℕ × List (S × A))
  | ag, 0, _, k, vis => some (ag, k, vis)
  | ag, Nat.succ num, initial_state, k, vis =>
    match choose_action env ag initial_state (rng k) with
    | none => none
    | some a =>
      match episode_loop v env rng fuel ag initial_state a (k + 1) vis with
      | none => none
      | some (ag2, k2, vis2) => learn v env rng fuel ag2 num initial_state k2 vis2

/-! ## The WindyGridWorld environment -/

/-- The four grid actions (string constants in the source). -/
inductive WAction
  | UP
  | DOWN
  | LEFT
  | RIGHT
deriving DecidableEq, Repr

/-- CPython 2.7 hash-slot order for the four action strings: with the
2.7 string hash, `hash("DOWN") & 7 = 0`, `hash("RIGHT") & 7 = 3`,
`hash("UP") & 7 = 5`, `hash("LEFT") & 7 = 7` (on 32- and 64-bit builds
alike).  The slots are distinct, so a small dict over any subset of
these keys probes without collision and `items()` iterates the
subsequence of `[DOWN, RIGHT, UP, LEFT]` restricted to the present
keys, independently of insertion order. -/
instance : PyDict WAction where
  items_order l :=
    [WAction.DOWN, WAction.RIGHT, WAction.UP, WAction.LEFT].filter
      (fun a => a ∈ l)
  mem_items_order l a := by
    cases a <;> simp [List.mem_filter]

/-- CPython 2.7 dict order for small nonnegative int keys:
`hash(i) = i`, so keys below the table size sit in increasing slot
order.  The only environment with integer actions (`envE2`) builds
dicts over `[0]` or `[]`, where first-insertion order with duplicates
collapsed coincides with the slot order. -/
instance : PyDict ℕ where
  items_order l := l.dedup
  mem_items_order l a := List.mem_dedup

/-- `WindyGridWorld(rewards, wind)`: `n, m = rewards.shape`; `wind` is
indexed by (possibly unclamped) column, embedded as a total function on
`ℤ`. -/
structure WindyGridWorld where
  n : ℕ
  m : ℕ
  rewards : ℕ → ℕ → ℚ
  wind : ℤ → ℤ

/-- `self.states = list(product(range(n), range(m)))`. -/
def WindyGridWorld.states (w : WindyGridWorld) : List (ℕ × ℕ) :=
  (List.range w.n).flatMap (fun i => (List.range w.m).map (fun j => (i, j)))

/-- `WindyGridWorld.get_possible_actions(state)`: appends
UP, DOWN, LEFT, RIGHT in that order, filtered by the grid bounds
(`max_down = n - 1`, `max_right = m - 1`).  Depends only on the grid
shape, never on the rewards (and hence never on terminality). -/
def WindyGridWorld.get_possible_actions (w : WindyGridWorld) (s : ℕ × ℕ) :
    List WAction :=
  (if 0 < s.1 then [WAction.UP] else []) ++
  (if s.1 < w.n - 1 then [WAction.DOWN] else []) ++
  (if 0 < s.2 then [WAction.LEFT] else []) ++
  (if s.2 < w.m - 1 then [WAction.RIGHT] else [])

/-- `WindyGridWorld.execute_action(state, action)`: move, subtract the
wind at the (unclamped) new column, clamp to the grid, and return the
new state with reward `rewards[new] - 1`. -/
def WindyGridWorld.execute_action (w : WindyGridWorld) (s : ℕ × ℕ)
    (a : WAction) : (ℕ × ℕ) × ℚ :=
  let i : ℤ := s.1
  let j : ℤ := s.2
  let i := if a = WAction.UP then i - 1 else i
  let i := if a = WAction.DOWN then i + 1 else i
  let j := if a = WAction.LEFT then j - 1 else j
  let j := if a = WAction.RIGHT then j + 1 else j
  let i := i - w.wind j
  let i := max 0 (min i ((w.n : ℤ) - 1))
  let j := max 0 (min j ((w.m : ℤ) - 1))
  ((i.toNat, j.toNat), w.rewards i.toNat j.toNat - 1)

/-- `WindyGridWorld.is_terminal_state(state)`: terminal once the reward
is positive. -/
def WindyGridWorld.is_terminal_state (w : WindyGridWorld) (s : ℕ × ℕ) : Bool :=
  decide (0 < w.rewards s.1 s.2)

/-- Package a `WindyGridWorld` as the abstract environment interface. -/
def WindyGridWorld.toEnv (w : WindyGridWorld) :
    ObservableEnvironment (ℕ × ℕ) WAction :=
  { get_states := w.states,
    get_possible_actions := w.get_possible_actions,
    execute_action := w.execute_action,
    is_terminal_state := w.is_terminal_state }

/-! ## Concrete instances used as witnesses -/

/-- A deterministic injected random stream that always draws 0. -/
def rng0 : ℕ → ℚ := fun _ => 0

/-- A 1×2 gridworld whose right cell carries reward 1 (hence is
terminal), with no wind. -/
def w12 : WindyGridWorld :=
  { n := 1, m := 2,
    rewards := fun i j => if i = 0 ∧ j = 1 then 1 else 0,
    wind := fun _ => 0 }

def env12 : ObservableEnvironment (ℕ × ℕ) WAction := w12.toEnv

/-- An agent on `env12` with the source's default hyperparameters
(`discount_factor=1., alpha=.4, epsilon=.05`). -/
def ag12 : Agent (ℕ × ℕ) WAction := init_agent env12 1 (2 / 5) (1 / 20)

/-- A handcrafted instance of the abstract environment interface whose
state 1 is terminal and has an empty legal-action set; every action
from state 0 leads to state 1.  Used to exercise the empty
successor-action-set edge case. -/
def envE2 : ObservableEnvironment ℕ ℕ :=
  { get_states := [0, 1],
    get_possible_actions := fun s => if s = 0 then [0] else [],
    execute_action := fun _ _ => (1, 0),
    is_terminal_state := fun s => s == 1 }

def agE2 : Agent ℕ ℕ := init_agent envE2 1 (2 / 5) (1 / 20)

/-- A 3×1 gridworld (no wind) whose bottom cell carries reward 1.  Its
middle state `(1, 0)` has the legal actions `[UP, DOWN]`, whose
Python-2 dict items order is `[DOWN, UP]` — the opposite of the
enumeration order — so a Q-tie at `(1, 0)` separates the two
tie-breaking rules. -/
def w31 : WindyGridWorld :=
  { n := 3, m := 1,
    rewards := fun i j => if i = 2 ∧ j = 0 then 1 else 0,
    wind := fun _ => 0 }

def env31 : ObservableEnvironment (ℕ × ℕ) WAction := w31.toEnv

/-- An agent on `env31` with the source's default hyperparameters. -/
def ag31 : Agent (ℕ × ℕ) WAction := init_agent env31 1 (2 / 5) (1 / 20)

/-! ## Basic lemmas about the table primitives -/

@[simp]
theorem upd_same {K : Type} [DecidableEq K] (f : K → ℚ) (k : K) (v : ℚ) :
    upd f k v k = v := by
  simp [upd]

theorem upd_other {K : Type} [DecidableEq K] (f : K → ℚ) (k x : K) (v : ℚ)
    (h : x ≠ k) : upd f k v x = f x := by
  simp [upd, h]

theorem pick_index_lt :
    ∀ (ps : List ℚ) (u : ℚ) (i : ℕ), pick_index ps u = some i → i < ps.length := by
  intro ps
  induction ps with
  | nil => intro u i h; simp [pick_index] at h
  | cons p ps ih =>
    intro u i h
    simp only [pick_index] at h
    by_cases hu : u < p
    · simp [hu] at h
      simp only [List.length_cons]
      omega
    · simp [hu] at h
      obtain ⟨i0, hi0, hii⟩ := h
      have := ih (u - p) i0 hi0
      simp only [List.length_cons]
      omega

theorem mem_of_getElem? {α : Type} {l : List α} {i : ℕ} {a : α}
    (h : l[i]? = some a) : a ∈ l := by
  induction l generalizing i with
  | nil => simp at h
  | cons x xs ih =>
    cases i with
    | zero => simp at h; simp [h]
    | succ i =>
      simp only [List.getElem?_cons_succ] at h
      exact List.mem_cons_of_mem x (ih h)

theorem choose_action_mem {env : ObservableEnvironment S A} {ag : Agent S A}
    {s : S} {u : ℚ} {a : A} (h : choose_action env ag s u = some a) :
    a ∈ env.get_possible_actions s := by
  unfold choose_action at h
  simp only [Option.bind_eq_some] at h
  obtain ⟨i, hi, hget⟩ := h
  exact mem_of_getElem? hget

theorem choose_action_empty {env : ObservableEnvironment S A} {ag : Agent S A}
    {s : S} (h : env.get_possible_actions s = []) (u : ℚ) :
    choose_action env ag s u = none := by
  unfold choose_action
  simp [h, pick_index]

theorem max_by_value_mem :
    ∀ (xs : List (A × ℚ)) (x : A × ℚ), max_by_value x xs ∈ x :: xs := by
  intro xs
  induction xs with
  | nil => intro x; simp [max_by_value]
  | cons y ys ih =>
    intro x
    have := ih (if x.2 < y.2 then y else x)
    simp only [max_by_value, List.foldl_cons] at *
    rcases List.mem_cons.1 this with h | h
    · rw [h]
      by_cases hxy : x.2 < y.2 <;> simp [hxy]
    · simp [h]

theorem max_by_value_le :
    ∀ (xs : List (A × ℚ)) (x y : A × ℚ), y ∈ x :: xs →
      y.2 ≤ (max_by_value x xs).2 := by
  intro xs
  induction xs with
  | nil => intro x y hy; simp at hy; simp [max_by_value, hy]
  | cons z zs ih =>
    intro x y hy
    simp only [max_by_value, List.foldl_cons]
    rcases List.mem_cons.1 hy with h | h
    · subst h
      have h1 : y.2 ≤ (if y.2 < z.2 then z else y).2 := by
        by_cases hyz : y.2 < z.2 <;> simp [hyz]
        · exact le_of_lt hyz
      exact le_trans h1 (ih (if y.2 < z.2 then z else y) _ (List.mem_cons_self _ _))
    · rcases List.mem_cons.1 h with h2 | h2
      · subst h2
        have h1 : y.2 ≤ (if x.2 < y.2 then y else x).2 := by
          by_cases hxy : x.2 < y.2 <;> simp [hxy]
          · exact le_of_not_lt hxy
        exact le_trans h1 (ih _ _ (List.mem_cons_self _ _))
      · exact ih _ _ (List.mem_cons_of_mem _ h2)

theorem find_best_action_mem {env : ObservableEnvironment S A} {ag : Agent S A}
    {s : S} {b : A} (h : find_best_action env ag s = some b) :
    b ∈ env.get_possible_actions s := by
  unfold find_best_action at h
  rcases hm : (PyDict.items_order (env.get_possible_actions s)).map
      (fun action => (action, ag.Q (s, action))) with _ | ⟨x, xs⟩
  · rw [hm] at h; simp at h
  · rw [hm] at h
    simp only [Option.some_inj] at h
    have hmem : max_by_value x xs ∈ x :: xs := max_by_value_mem xs x
    rw [← hm] at hmem
    obtain ⟨a, ha, hexp⟩ := List.mem_map.1 hmem
    have : b = a := by rw [← h, ← hexp]
    rw [this]
    exact (PyDict.mem_items_order _ _).1 ha

theorem find_best_action_max {env : ObservableEnvironment S A} {ag : Agent S A}
    {s : S} {b : A} (h : find_best_action env ag s = some b) :
    ∀ a ∈ env.get_possible_actions s, ag.Q (s, a) ≤ ag.Q (s, b) := by
  intro a ha
  unfold find_best_action at h
  rcases hm : (PyDict.items_order (env.get_possible_actions s)).map
      (fun action => (action, ag.Q (s, action))) with _ | ⟨x, xs⟩
  · rw [hm] at h; simp at h
  · rw [hm] at h
    simp only [Option.some_inj] at h
    have hmem : (a, ag.Q (s, a)) ∈ x :: xs := by
      rw [← hm]
      exact List.mem_map.2 ⟨a, (PyDict.mem_items_order _ _).2 ha, rfl⟩
    have hle := max_by_value_le xs x _ hmem
    have hmaxmem : max_by_value x xs ∈ x :: xs := max_by_value_mem xs x
    rw [← hm] at hmaxmem
    obtain ⟨a2, ha2, hexp⟩ := List.mem_map.1 hmaxmem
    have hb : b = a2 := by rw [← h, ← hexp]
    have hq : (max_by_value x xs).2 = ag.Q (s, a2) := by rw [← hexp]
    rw [hb]
    calc ag.Q (s, a) ≤ (max_by_value x xs).2 := hle
      _ = ag.Q (s, a2) := hq

theorem items_order_nil : PyDict.items_order ([] : List A) = [] := by
  cases hm : PyDict.items_order ([] : List A) with
  | nil => rfl
  | cons x xs =>
    have hx : x ∈ PyDict.items_order ([] : List A) := by
      rw [hm]
      exact List.mem_cons_self x xs
    have := (PyDict.mem_items_order ([] : List A) x).1 hx
    exact absurd this (by simp)

theorem find_best_action_empty {env : ObservableEnvironment S A}
    {ag : Agent S A} {s : S} (h : env.get_possible_actions s = []) :
    find_best_action env ag s = none := by
  unfold find_best_action
  rw [h, items_order_nil]
  rfl

theorem find_best_action_isSome {env : ObservableEnvironment S A}
    {ag : Agent S A} {s : S} {b : A} (h : find_best_action env ag s = some b) :
    env.get_possible_actions s ≠ [] := by
  intro hc
  rw [find_best_action_empty hc] at h
  exact Option.noConfusion h

/-! ## Characterization of the table-writing folds -/

theorem foldl_upd_apply (st : S) (c : ℚ) :
    ∀ (as : List A) (f : (S × A) → ℚ) (p : S × A),
      (as.foldl (fun g a => upd g (st, a) c) f) p =
        if p.1 = st ∧ p.2 ∈ as then c else f p := by
  intro as
  induction as with
  | nil => intro f p; simp
  | cons a as ih =>
    intro f p
    simp only [List.foldl_cons]
    rw [ih]
    by_cases h1 : p.1 = st ∧ p.2 ∈ as
    · rw [if_pos h1, if_pos ⟨h1.1, List.mem_cons_of_mem a h1.2⟩]
    · rw [if_neg h1]
      by_cases h2 : p = (st, a)
      · subst h2
        simp [upd]
      · rw [upd_other _ _ _ _ h2, if_neg]
        intro hc
        rcases List.mem_cons.1 hc.2 with h3 | h3
        · exact h2 (Prod.ext hc.1 h3)
        · exact h1 ⟨hc.1, h3⟩

theorem foldl_upd_pair_apply (st : S) (c1 c2 : ℚ) :
    ∀ (as : List A) (t : ((S × A) → ℚ) × ((S × A) → ℚ)) (p : S × A),
      ((as.foldl (fun t a => (upd t.1 (st, a) c1, upd t.2 (st, a) c2)) t).1 p =
        if p.1 = st ∧ p.2 ∈ as then c1 else t.1 p) ∧
      ((as.foldl (fun t a => (upd t.1 (st, a) c1, upd t.2 (st, a) c2)) t).2 p =
        if p.1 = st ∧ p.2 ∈ as then c2 else t.2 p) := by
  intro as
  induction as with
  | nil => intro t p; simp
  | cons a as ih =>
    intro t p
    simp only [List.foldl_cons]
    obtain ⟨ih1, ih2⟩ := ih (upd t.1 (st, a) c1, upd t.2 (st, a) c2) p
    rw [ih1, ih2]
    by_cases h1 : p.1 = st ∧ p.2 ∈ as
    · rw [if_pos h1, if_pos h1,
        if_pos ⟨h1.1, List.mem_cons_of_mem a h1.2⟩,
        if_pos ⟨h1.1, List.mem_cons_of_mem a h1.2⟩]
      exact ⟨rfl, rfl⟩
    · rw [if_neg h1, if_neg h1]
      dsimp only
      by_cases h2 : p = (st, a)
      · subst h2
        simp [upd]
      · rw [upd_other _ _ _ _ h2, upd_other _ _ _ _ h2, if_neg, if_neg]
        · exact ⟨rfl, rfl⟩
        all_goals
          intro hc
          rcases List.mem_cons.1 hc.2 with h3 | h3
          · exact h2 (Prod.ext hc.1 h3)
          · exact h1 ⟨hc.1, h3⟩

theorem init_fold_apply (env : ObservableEnvironment S A) :
    ∀ (l : List S) (t : ((S × A) → ℚ) × ((S × A) → ℚ)) (p : S × A),
      ((l.foldl (init_step env) t).1 p =
        if p.1 ∈ l ∧ p.2 ∈ env.get_possible_actions p.1 then 0 else t.1 p) ∧
      ((l.foldl (init_step env) t).2 p =
        if p.1 ∈ l ∧ p.2 ∈ env.get_possible_actions p.1 then
          1 / ((env.get_possible_actions p.1).length : ℚ)
        else t.2 p) := by
  intro l
  induction l with
  | nil => intro t p; simp
  | cons st rest ih =>
    intro t p
    simp only [List.foldl_cons]
    obtain ⟨ih1, ih2⟩ := ih (init_step env t st) p
    rw [ih1, ih2]
    have hstep :
        ((init_step env t st).1 p =
          if p.1 = st ∧ p.2 ∈ env.get_possible_actions st then 0 else t.1 p) ∧
        ((init_step env t st).2 p =
          if p.1 = st ∧ p.2 ∈ env.get_possible_actions st then
            1 / ((env.get_possible_actions st).length : ℚ)
          else t.2 p) :=
      foldl_upd_pair_apply st 0 (1 / ((env.get_possible_actions st).length : ℚ))
        (env.get_possible_actions st) t p
    obtain ⟨e1, e2⟩ := hstep
    by_cases hr : p.1 ∈ rest ∧ p.2 ∈ env.get_possible_actions p.1
    · rw [if_pos hr, if_pos hr,
        if_pos ⟨List.mem_cons_of_mem st hr.1, hr.2⟩,
        if_pos ⟨List.mem_cons_of_mem st hr.1, hr.2⟩]
      exact ⟨rfl, rfl⟩
    · rw [if_neg hr, if_neg hr, e1, e2]
      by_cases hst : p.1 = st ∧ p.2 ∈ env.get_possible_actions st
      · have hmem : p.1 ∈ st :: rest := hst.1 ▸ List.mem_cons_self st rest
        have hact : p.2 ∈ env.get_possible_actions p.1 := by
          rw [hst.1]; exact hst.2
        have hlen : (env.get_possible_actions st) = env.get_possible_actions p.1 := by
          rw [hst.1]
        rw [if_pos hst, if_pos hst, if_pos ⟨hmem, hact⟩, if_pos ⟨hmem, hact⟩, hlen]
        exact ⟨rfl, rfl⟩
      · rw [if_neg hst, if_neg hst, if_neg, if_neg]
        · exact ⟨rfl, rfl⟩
        all_goals
          intro hc
          rcases List.mem_cons.1 hc.1 with h3 | h3
          · exact hst ⟨h3, h3 ▸ hc.2⟩
          · exact hr ⟨h3, hc.2⟩

/-- Immediately after construction every Q entry is 0 (the pre-populated
entries are written 0 and the base function is also 0). -/
theorem init_agent_Q (env : ObservableEnvironment S A)
    (df al eps : ℚ) (p : S × A) : (init_agent env df al eps).Q p = 0 := by
  show (init_tables env).1 p = 0
  unfold init_tables
  rw [(init_fold_apply env env.get_states (fun _ => 0, fun _ => 0) p).1]
  split <;> rfl

/-- Immediately after construction the policy is uniform over the legal
actions of every enumerated state. -/
theorem init_agent_policy (env : ObservableEnvironment S A)
    (df al eps : ℚ) (p : S × A) (h1 : p.1 ∈ env.get_states)
    (h2 : p.2 ∈ env.get_possible_actions p.1) :
    (init_agent env df al eps).policy p =
      1 / ((env.get_possible_actions p.1).length : ℚ) := by
  show (init_tables env).2 p = _
  unfold init_tables
  rw [(init_fold_apply env env.get_states (fun _ => 0, fun _ => 0) p).2]
  rw [if_pos ⟨h1, h2⟩]

/-! ## Lemmas about the policy refresh -/

theorem update_policy_go_frame (env : ObservableEnvironment S A) (ag : Agent S A) :
    ∀ (l : List S) (pol pol2 : (S × A) → ℚ),
      update_policy_go env ag l pol = some pol2 →
      ∀ p : S × A, p.1 ∉ l → pol2 p = pol p := by
  intro l
  induction l with
  | nil =>
    intro pol pol2 h p _
    simp only [update_policy_go, Option.some_inj] at h
    rw [h]
  | cons st rest ih =>
    intro pol pol2 h p hp
    simp only [update_policy_go] at h
    rcases hb : find_best_action env ag st with _ | best
    · rw [hb] at h; exact absurd h (by simp)
    · rw [hb] at h
      have hpst : p.1 ≠ st := fun hc => hp (hc ▸ List.mem_cons_self _ _)
      have hrest := ih _ _ h p (fun hc => hp (List.mem_cons_of_mem _ hc))
      rw [hrest, upd_other _ _ _ _ (fun hc => hpst (by rw [hc])),
        foldl_upd_apply, if_neg (fun hc => hpst hc.1)]

theorem update_policy_go_shape (env : ObservableEnvironment S A) (ag : Agent S A) :
    ∀ (l : List S) (pol pol2 : (S × A) → ℚ),
      update_policy_go env ag l pol = some pol2 →
      ∀ s ∈ l, ∃ best, find_best_action env ag s = some best ∧
        pol2 (s, best) =
          ag.epsilon / ((env.get_possible_actions s).length : ℚ) + (1 - ag.epsilon) ∧
        ∀ a ∈ env.get_possible_actions s, a ≠ best →
          pol2 (s, a) = ag.epsilon / ((env.get_possible_actions s).length : ℚ) := by
  intro l
  induction l with
  | nil => intro pol pol2 _ s hs; exact absurd hs (by simp)
  | cons st rest ih =>
    intro pol pol2 h s hs
    simp only [update_policy_go] at h
    rcases hb : find_best_action env ag st with _ | best
    · rw [hb] at h; exact absurd h (by simp)
    · rw [hb] at h
      by_cases hsr : s ∈ rest
      · exact ih _ _ h s hsr
      · have hst : s = st := by
          rcases List.mem_cons.1 hs with h1 | h1
          · exact h1
          · exact absurd h1 hsr
        subst hst
        refine ⟨best, hb, ?_, ?_⟩
        · have hfr := update_policy_go_frame env ag rest _ _ h (s, best) hsr
          rw [hfr, upd_same, foldl_upd_apply,
            if_pos ⟨rfl, find_best_action_mem hb⟩]
        · intro a ha hab
          have hfr := update_policy_go_frame env ag rest _ _ h (s, a) hsr
          rw [hfr, upd_other _ _ _ _ (by simp [hab]),
            foldl_upd_apply, if_pos ⟨rfl, ha⟩]

theorem update_policy_go_off (env : ObservableEnvironment S A) (ag : Agent S A) :
    ∀ (l : List S) (pol pol2 : (S × A) → ℚ),
      update_policy_go env ag l pol = some pol2 →
      ∀ p : S × A, p.2 ∉ env.get_possible_actions p.1 → pol2 p = pol p := by
  intro l
  induction l with
  | nil =>
    intro pol pol2 h p _
    simp only [update_policy_go, Option.some_inj] at h
    rw [h]
  | cons st rest ih =>
    intro pol pol2 h p hp
    simp only [update_policy_go] at h
    rcases hb : find_best_action env ag st with _ | best
    · rw [hb] at h; exact absurd h (by simp)
    · rw [hb] at h
      have hrest := ih _ _ h p hp
      have hpbest : p ≠ (st, best) := by
        intro hc
        apply hp
        rw [hc]
        rw [hc] at hp
        exact absurd (find_best_action_mem hb) hp
      rw [hrest, upd_other _ _ _ _ hpbest, foldl_upd_apply, if_neg]
      intro hc
      exact hp (hc.1 ▸ hc.2)

theorem update_policy_eq {env : ObservableEnvironment S A} {ag ag2 : Agent S A}
    (h : update_policy env ag = some ag2) :
    ∃ pol, update_policy_go env ag env.get_states ag.policy = some pol ∧
      ag2 = { ag with policy := pol } := by
  unfold update_policy at h
  rcases hg : update_policy_go env ag env.get_states ag.policy with _ | pol
  · rw [hg] at h; exact absurd h (by simp)
  · rw [hg] at h
    have h2 : some ({ ag with policy := pol } : Agent S A) = some ag2 := h
    exact ⟨pol, rfl, (Option.some_inj.1 h2).symm⟩

theorem update_policy_fields {env : ObservableEnvironment S A}
    {ag ag2 : Agent S A} (h : update_policy env ag = some ag2) :
    ag2.Q = ag.Q ∧ ag2.epsilon = ag.epsilon ∧ ag2.alpha = ag.alpha ∧
      ag2.discount_factor = ag.discount_factor := by
  obtain ⟨pol, _, hag⟩ := update_policy_eq h
  subst hag
  exact ⟨rfl, rfl, rfl, rfl⟩

theorem find_best_action_congr {env : ObservableEnvironment S A}
    {ag ag2 : Agent S A} (h : ag.Q = ag2.Q) (s : S) :
    find_best_action env ag s = find_best_action env ag2 s := by
  unfold find_best_action
  rw [h]

/-- The epsilon-greedy shape of a policy table at state `s`:
`best` is the argmax of `Q[s,-]` over the legal actions computed by
`_find_best_action` (ties broken in favour of the first action in the
Python-2 dict items order of the legal-action keys), carries
probability `(1-ε) + ε/|A(s)|`, and every other legal action carries
`ε/|A(s)|`. -/
def eps_greedy_shape (env : ObservableEnvironment S A) (ag : Agent S A)
    (s : S) : Prop :=
  ∃ best, find_best_action env ag s = some best ∧
    best ∈ env.get_possible_actions s ∧
    (∀ a ∈ env.get_possible_actions s, ag.Q (s, a) ≤ ag.Q (s, best)) ∧
    ag.policy (s, best) =
      (1 - ag.epsilon) + ag.epsilon / ((env.get_possible_actions s).length : ℚ) ∧
    ∀ a ∈ env.get_possible_actions s, a ≠ best →
      ag.policy (s, a) = ag.epsilon / ((env.get_possible_actions s).length : ℚ)

/-- A successful `_update_policy` leaves the policy table in the
epsilon-greedy shape at every state of the environment. -/
theorem update_policy_shape {env : ObservableEnvironment S A}
    {ag ag2 : Agent S A} (h : update_policy env ag = some ag2) :
    ∀ s ∈ env.get_states, eps_greedy_shape env ag2 s := by
  intro s hs
  obtain ⟨pol, hgo, hag⟩ := update_policy_eq h
  obtain ⟨best, hb, hbest, hother⟩ :=
    update_policy_go_shape env ag env.get_states ag.policy pol hgo s hs
  have hQ : ag.Q = ag2.Q := by rw [hag]
  refine ⟨best, ?_, find_best_action_mem hb, ?_, ?_, ?_⟩
  · rw [← find_best_action_congr hQ]
    exact hb
  · intro a ha
    rw [← hQ]
    exact find_best_action_max hb a ha
  · rw [hag]
    show pol (s, best) = _
    rw [hbest]
    show _ = (1 - ag.epsilon) + ag.epsilon / ((env.get_possible_actions s).length : ℚ)
    ring
  · intro a ha hab
    rw [hag]
    show pol (s, a) = _
    rw [hother a ha hab]

/-! ## Lemmas about the inner learning step -/

/-- The behaviour of `SarsaAgent._inner_learn(S, A)` claimed by the
spec: execute `A` at `S` to observe `(S_next, R)`, sample `A_next` from
the current policy at `S_next`, apply exactly the TD(0) update to
`Q[S, A]` with target `R + γ·Q[S_next, A_next]` and change nothing
else, and return `(S_next, A_next)` to the driver. -/
def sarsa_step_spec (env : ObservableEnvironment S A) (rng : ℕ → ℚ)
    (ag : Agent S A) (s : S) (a : A) (k : ℕ)
    (res : Agent S A × S × A × ℕ × (S × A)) : Prop :=
  res.2.1 = (env.execute_action s a).1 ∧
  choose_action env ag res.2.1 (rng k) = some res.2.2.1 ∧
  res.1.Q (s, a) = ag.Q (s, a) + ag.alpha * ((env.execute_action s a).2 +
    ag.discount_factor * ag.Q (res.2.1, res.2.2.1) - ag.Q (s, a)) ∧
  (∀ p : S × A, p ≠ (s, a) → res.1.Q p = ag.Q p) ∧
  res.1.policy = ag.policy ∧
  res.2.2.2.1 = k + 1 ∧
  res.2.2.2.2 = (s, a)

theorem inner_learn_sarsa {env : ObservableEnvironment S A} {rng : ℕ → ℚ}
    {ag : Agent S A} {s : S} {a : A} {k : ℕ}
    {res : Agent S A × S × A × ℕ × (S × A)}
    (h : inner_learn .sarsa env rng ag s a k = some res) :
    sarsa_step_spec env rng ag s a k res := by
  simp only [inner_learn] at h
  rcases hc : choose_action env ag (env.execute_action s a).1 (rng k) with _ | a2
  · rw [hc] at h; exact absurd h (by simp)
  · rw [hc] at h
    have h2 := Option.some_inj.1 h
    subst h2
    refine ⟨rfl, hc, ?_, ?_, rfl, rfl, rfl⟩
    · simp [upd]
    · intro p hp
      exact upd_other _ _ _ _ hp

/-- The behaviour of `QLearningAgent._inner_learn(S, A)` claimed by the
spec: ignore the incoming `A`, sample a fresh action `A'` from the
current policy at `S`, execute it, bootstrap from
`Q[S_next, A_best]` where `A_best` is the greedy action at `S_next`,
update only `Q[S, A']`, and return `(S_next, A')` (not `A_best`). -/
def qlearning_step_spec (env : ObservableEnvironment S A) (rng : ℕ → ℚ)
    (ag : Agent S A) (s : S) (k : ℕ)
    (res : Agent S A × S × A × ℕ × (S × A)) : Prop :=
  ∃ a2 a_best,
    choose_action env ag s (rng k) = some a2 ∧
    res.2.1 = (env.execute_action s a2).1 ∧
    res.2.2.1 = a2 ∧
    find_best_action env ag res.2.1 = some a_best ∧
    (∀ b ∈ env.get_possible_actions res.2.1,
      ag.Q (res.2.1, b) ≤ ag.Q (res.2.1, a_best)) ∧
    res.1.Q (s, a2) = ag.Q (s, a2) + ag.alpha * ((env.execute_action s a2).2 +
      ag.discount_factor * ag.Q (res.2.1, a_best) - ag.Q (s, a2)) ∧
    (∀ p : S × A, p ≠ (s, a2) → res.1.Q p = ag.Q p) ∧
    res.1.policy = ag.policy ∧
    res.2.2.2.1 = k + 1 ∧
    res.2.2.2.2 = (s, a2)

theorem inner_learn_qlearning {env : ObservableEnvironment S A} {rng : ℕ → ℚ}
    {ag : Agent S A} {s : S} {a : A} {k : ℕ}
    {res : Agent S A × S × A × ℕ × (S × A)}
    (h : inner_learn .qlearning env rng ag s a k = some res) :
    qlearning_step_spec env rng ag s k res := by
  simp only [inner_learn] at h
  rcases hc : choose_action env ag s (rng k) with _ | a2
  · rw [hc] at h; exact absurd h (by simp)
  · rw [hc] at h
    dsimp only at h
    rcases hb : find_best_action env ag (env.execute_action s a2).1 with _ | a_best
    · rw [hb] at h; exact absurd h (by simp)
    · rw [hb] at h
      have h2 := Option.some_inj.1 h
      subst h2
      refine ⟨a2, a_best, hc, rfl, rfl, hb, find_best_action_max hb, ?_, ?_, rfl, rfl, rfl⟩
      · simp [upd]
      · intro p hp
        exact upd_other _ _ _ _ hp

/-- The behaviour of `ExpectedSarsaAgent._inner_learn(S, A)` claimed by
the spec: execute `A` at `S`, sample `A_next` at `S_next`, bootstrap
from the expectation `Σ_a policy[S_next, a]·Q[S_next, a]` over the legal
actions of `S_next`, update only `Q[S, A]`, and return
`(S_next, A_next)`. -/
def expected_sarsa_step_spec (env : ObservableEnvironment S A) (rng : ℕ → ℚ)
    (ag : Agent S A) (s : S) (a : A) (k : ℕ)
    (res : Agent S A × S × A × ℕ × (S × A)) : Prop :=
  res.2.1 = (env.execute_action s a).1 ∧
  choose_action env ag res.2.1 (rng k) = some res.2.2.1 ∧
  res.1.Q (s, a) = ag.Q (s, a) + ag.alpha * ((env.execute_action s a).2 +
    ag.discount_factor * ((env.get_possible_actions res.2.1).map
      (fun b => ag.policy (res.2.1, b) * ag.Q (res.2.1, b))).sum - ag.Q (s, a)) ∧
  (∀ p : S × A, p ≠ (s, a) → res.1.Q p = ag.Q p) ∧
  res.1.policy = ag.policy ∧
  res.2.2.2.1 = k + 1 ∧
  res.2.2.2.2 = (s, a)

theorem foldl_add_eq_sum (f : A → ℚ) :
    ∀ (l : List A) (c : ℚ), l.foldl (fun acc b => acc + f b) c = c + (l.map f).sum := by
  intro l
  induction l with
  | nil => intro c; simp
  | cons b l ih =>
    intro c
    simp only [List.foldl_cons, List.map_cons, List.sum_cons]
    rw [ih]
    ring

theorem inner_learn_expected {env : ObservableEnvironment S A} {rng : ℕ → ℚ}
    {ag : Agent S A} {s : S} {a : A} {k : ℕ}
    {res : Agent S A × S × A × ℕ × (S × A)}
    (h : inner_learn .expectedSarsa env rng ag s a k = some res) :
    expected_sarsa_step_spec env rng ag s a k res := by
  simp only [inner_learn] at h
  rcases hc : choose_action env ag (env.execute_action s a).1 (rng k) with _ | a2
  · rw [hc] at h; exact absurd h (by simp)
  · rw [hc] at h
    have h2 := Option.some_inj.1 h
    subst h2
    refine ⟨rfl, hc, ?_, ?_, rfl, rfl, rfl⟩
    · show upd _ _ _ (s, a) = _
      rw [upd_same, foldl_add_eq_sum, zero_add]
    · intro p hp
      exact upd_other _ _ _ _ hp

/-- Every variant of `_inner_learn` leaves the policy table and the
hyperparameters untouched and advances the random cursor by one. -/
theorem inner_learn_fields {v : Variant} {env : ObservableEnvironment S A}
    {rng : ℕ → ℚ} {ag : Agent S A} {s : S} {a : A} {k : ℕ}
    {res : Agent S A × S × A × ℕ × (S × A)}
    (h : inner_learn v env rng ag s a k = some res) :
    res.1.policy = ag.policy ∧ res.1.epsilon = ag.epsilon ∧
      res.1.alpha = ag.alpha ∧ res.1.discount_factor = ag.discount_factor ∧
      res.2.2.2.1 = k + 1 := by
  cases v with
  | sarsa =>
    obtain ⟨_, _, _, _, hp, hk, _⟩ := inner_learn_sarsa h
    simp only [inner_learn] at h
    rcases hc : choose_action env ag (env.execute_action s a).1 (rng k) with _ | a2
    · rw [hc] at h; exact absurd h (by simp)
    · rw [hc] at h
      have h2 := Option.some_inj.1 h
      subst h2
      exact ⟨rfl, rfl, rfl, rfl, rfl⟩
  | qlearning =>
    simp only [inner_learn] at h
    rcases hc : choose_action env ag s (rng k) with _ | a2
    · rw [hc] at h; exact absurd h (by simp)
    · rw [hc] at h
      dsimp only at h
      rcases hb : find_best_action env ag (env.execute_action s a2).1 with _ | a_best
      · rw [hb] at h; exact absurd h (by simp)
      · rw [hb] at h
        have h2 := Option.some_inj.1 h
        subst h2
        exact ⟨rfl, rfl, rfl, rfl, rfl⟩
  | expectedSarsa =>
    simp only [inner_learn] at h
    rcases hc : choose_action env ag (env.execute_action s a).1 (rng k) with _ | a2
    · rw [hc] at h; exact absurd h (by simp)
    · rw [hc] at h
      have h2 := Option.some_inj.1 h
      subst h2
      exact ⟨rfl, rfl, rfl, rfl, rfl⟩

/-- Every variant of `_inner_learn` changes the Q table at most at the
single recorded pair. -/
theorem inner_learn_frame {v : Variant} {env : ObservableEnvironment S A}
    {rng : ℕ → ℚ} {ag : Agent S A} {s : S} {a : A} {k : ℕ}
    {res : Agent S A × S × A × ℕ × (S × A)}
    (h : inner_learn v env rng ag s a k = some res) :
    ∀ p : S × A, p ≠ res.2.2.2.2 → res.1.Q p = ag.Q p := by
  cases v with
  | sarsa =>
    obtain ⟨_, _, _, hfr, _, _, hkey⟩ := inner_learn_sarsa h
    intro p hp
    exact hfr p (hkey ▸ hp)
  | qlearning =>
    obtain ⟨a2, a_best, _, _, _, _, _, _, hfr, _, _, hkey⟩ := inner_learn_qlearning h
    intro p hp
    exact hfr p (hkey ▸ hp)
  | expectedSarsa =>
    obtain ⟨_, _, _, hfr, _, _, hkey⟩ := inner_learn_expected h
    intro p hp
    exact hfr p (hkey ▸ hp)

/-- The pair updated by `_inner_learn` is an enumerated pair, the
successor state returned to the driver is an enumerated state, and (for
the on-policy variants) the returned action is legal at the successor,
assuming the environment is closed under transitions. -/
theorem inner_learn_legal {v : Variant} {env : ObservableEnvironment S A}
    {rng : ℕ → ℚ} {ag : Agent S A} {s : S} {a : A} {k : ℕ}
    {res : Agent S A × S × A × ℕ × (S × A)}
    (h : inner_learn v env rng ag s a k = some res)
    (hclosed : ∀ s2 ∈ env.get_states, ∀ a2 ∈ env.get_possible_actions s2,
      (env.execute_action s2 a2).1 ∈ env.get_states)
    (hs : s ∈ env.get_states)
    (ha : v = .qlearning ∨ a ∈ env.get_possible_actions s) :
    (res.2.2.2.2.1 ∈ env.get_states ∧
      res.2.2.2.2.2 ∈ env.get_possible_actions res.2.2.2.2.1) ∧
    res.2.1 ∈ env.get_states ∧
    (v = .qlearning ∨ res.2.2.1 ∈ env.get_possible_actions res.2.1) := by
  cases v with
  | sarsa =>
    obtain ⟨hs2, hc, _, _, _, _, hkey⟩ := inner_learn_sarsa h
    have hmem : a ∈ env.get_possible_actions s := by
      rcases ha with h1 | h1
      · exact absurd h1 (by simp)
      · exact h1
    rw [hkey, hs2]
    exact ⟨⟨hs, hmem⟩, hclosed s hs a hmem,
      Or.inr (by rw [← hs2]; exact choose_action_mem hc)⟩
  | qlearning =>
    obtain ⟨a2, a_best, hc, hs2, ha2, _, _, _, _, _, _, hkey⟩ :=
      inner_learn_qlearning h
    have hmem : a2 ∈ env.get_possible_actions s := choose_action_mem hc
    rw [hkey, hs2]
    exact ⟨⟨hs, hmem⟩, hclosed s hs a2 hmem, Or.inl rfl⟩
  | expectedSarsa =>
    obtain ⟨hs2, hc, _, _, _, _, hkey⟩ := inner_learn_expected h
    have hmem : a ∈ env.get_possible_actions s := by
      rcases ha with h1 | h1
      · exact absurd h1 (by simp)
      · exact h1
    rw [hkey, hs2]
    exact ⟨⟨hs, hmem⟩, hclosed s hs a hmem,
      Or.inr (by rw [← hs2]; exact choose_action_mem hc)⟩

/-! ## Lemmas about the loop body and the episode loop -/

theorem learn_step_eq {v : Variant} {env : ObservableEnvironment S A}
    {rng : ℕ → ℚ} {ag : Agent S A} {s : S} {a : A} {k : ℕ}
    {res : Agent S A × S × A × ℕ × (S × A)}
    (h : learn_step v env rng ag s a k = some res) :
    ∃ ag1, inner_learn v env rng ag s a k =
        some (ag1, res.2.1, res.2.2.1, res.2.2.2.1, res.2.2.2.2) ∧
      update_policy env ag1 = some res.1 := by
  unfold learn_step at h
  rcases hi : inner_learn v env rng ag s a k with _ | r
  · rw [hi] at h; exact absurd h (by simp)
  · rw [hi] at h
    obtain ⟨ag1, s2, a2, k2, key⟩ := r
    dsimp only at h
    rcases hu : update_policy env ag1 with _ | ag3
    · rw [hu] at h; exact absurd h (by simp)
    · rw [hu] at h
      have h2 := Option.some_inj.1 h
      subst h2
      exact ⟨ag1, rfl, hu⟩

/-- When the current state is terminal the episode loop stops at the top
of the iteration, touching nothing, for any amount of fuel. -/
theorem episode_loop_terminal {v : Variant} {env : ObservableEnvironment S A}
    {rng : ℕ → ℚ} (fuel : ℕ) (ag : Agent S A) {s : S} (a : A) (k : ℕ)
    (vis : List (S × A)) (h : env.is_terminal_state s = true) :
    episode_loop v env rng fuel ag s a k vis = some (ag, k, vis) := by
  cases fuel <;> simp [episode_loop, h]

theorem update_policy_off {env : ObservableEnvironment S A} {ag ag2 : Agent S A}
    (h : update_policy env ag = some ag2) (p : S × A)
    (hp : ¬(p.1 ∈ env.get_states ∧ p.2 ∈ env.get_possible_actions p.1)) :
    ag2.policy p = ag.policy p := by
  obtain ⟨pol, hgo, hag⟩ := update_policy_eq h
  subst hag
  show pol p = ag.policy p
  by_cases h1 : p.1 ∈ env.get_states
  · have h2 : p.2 ∉ env.get_possible_actions p.1 := fun hc => hp ⟨h1, hc⟩
    exact update_policy_go_off env ag _ _ _ hgo p h2
  · exact update_policy_go_frame env ag _ _ _ hgo p h1

/-- Frame/ghost bookkeeping of the episode loop: the ghost visited list
only grows, Q entries outside the final visited list are untouched,
policy entries outside the enumerated state-action space are untouched,
and `epsilon` is preserved. -/
theorem episode_loop_frame {v : Variant} {env : ObservableEnvironment S A}
    {rng : ℕ → ℚ} :
    ∀ (fuel : ℕ) (ag : Agent S A) (s : S) (a : A) (k : ℕ) (vis : List (S × A))
      (ag2 : Agent S A) (k2 : ℕ) (vis2 : List (S × A)),
      episode_loop v env rng fuel ag s a k vis = some (ag2, k2, vis2) →
      vis ⊆ vis2 ∧
      (∀ p : S × A, p ∉ vis2 → ag2.Q p = ag.Q p) ∧
      (∀ p : S × A, ¬(p.1 ∈ env.get_states ∧ p.2 ∈ env.get_possible_actions p.1) →
        ag2.policy p = ag.policy p) ∧
      ag2.epsilon = ag.epsilon := by
  intro fuel
  induction fuel with
  | zero =>
    intro ag s a k vis ag2 k2 vis2 h
    simp only [episode_loop] at h
    by_cases ht : env.is_terminal_state s
    · rw [if_pos ht] at h
      simp only [Option.some_inj, Prod.mk.injEq] at h
      obtain ⟨h1, h2, h3⟩ := h
      subst h1; subst h2; subst h3
      exact ⟨List.Subset.refl _, fun p _ => rfl, fun p _ => rfl, rfl⟩
    · rw [if_neg ht] at h
      exact absurd h (by simp)
  | succ fuel ih =>
    intro ag s a k vis ag2 k2 vis2 h
    simp only [episode_loop] at h
    by_cases ht : env.is_terminal_state s
    · rw [if_pos ht] at h
      simp only [Option.some_inj, Prod.mk.injEq] at h
      obtain ⟨h1, h2, h3⟩ := h
      subst h1; subst h2; subst h3
      exact ⟨List.Subset.refl _, fun p _ => rfl, fun p _ => rfl, rfl⟩
    · rw [if_neg ht] at h
      rcases hls : learn_step v env rng ag s a k with _ | r
      · rw [hls] at h; exact absurd h (by simp)
      · rw [hls] at h
        obtain ⟨ag3, s3, a3, k3, key⟩ := r
        dsimp only at h
        obtain ⟨hsub, hQ, hpol, heps⟩ := ih ag3 s3 a3 k3 (vis ++ [key]) ag2 k2 vis2 h
        obtain ⟨ag1, hi, hu⟩ := learn_step_eq hls
        have hkey : key ∈ vis2 := hsub (by simp)
        refine ⟨fun x hx => hsub (List.mem_append_left _ hx), ?_, ?_, ?_⟩
        · intro p hp
          have hpk : p ≠ key := fun hc => hp (hc ▸ hkey)
          rw [hQ p hp, congrFun (update_policy_fields hu).1 p]
          exact inner_learn_frame hi p hpk
        · intro p hp
          rw [hpol p hp, update_policy_off hu p hp]
          exact congrFun (inner_learn_fields hi).1 p
        · rw [heps, (update_policy_fields hu).2.1, (inner_learn_fields hi).2.1]

/-- For a transition-closed environment, every pair added to the ghost
visited list by the episode loop is an enumerated (state, legal action)
pair. -/
theorem episode_loop_legal {v : Variant} {env : ObservableEnvironment S A}
    {rng : ℕ → ℚ}
    (hclosed : ∀ s2 ∈ env.get_states, ∀ a2 ∈ env.get_possible_actions s2,
      (env.execute_action s2 a2).1 ∈ env.get_states) :
    ∀ (fuel : ℕ) (ag : Agent S A) (s : S) (a : A) (k : ℕ) (vis : List (S × A))
      (ag2 : Agent S A) (k2 : ℕ) (vis2 : List (S × A)),
      episode_loop v env rng fuel ag s a k vis = some (ag2, k2, vis2) →
      s ∈ env.get_states →
      (v = .qlearning ∨ a ∈ env.get_possible_actions s) →
      (∀ p ∈ vis, p.1 ∈ env.get_states ∧ p.2 ∈ env.get_possible_actions p.1) →
      ∀ p ∈ vis2, p.1 ∈ env.get_states ∧ p.2 ∈ env.get_possible_actions p.1 := by
  intro fuel
  induction fuel with
  | zero =>
    intro ag s a k vis ag2 k2 vis2 h _ _ hvis
    simp only [episode_loop] at h
    by_cases ht : env.is_terminal_state s
    · rw [if_pos ht] at h
      simp only [Option.some_inj, Prod.mk.injEq] at h
      obtain ⟨_, _, h3⟩ := h
      subst h3
      exact hvis
    · rw [if_neg ht] at h
      exact absurd h (by simp)
  | succ fuel ih =>
    intro ag s a k vis ag2 k2 vis2 h hs ha hvis
    simp only [episode_loop] at h
    by_cases ht : env.is_terminal_state s
    · rw [if_pos ht] at h
      simp only [Option.some_inj, Prod.mk.injEq] at h
      obtain ⟨_, _, h3⟩ := h
      subst h3
      exact hvis
    · rw [if_neg ht] at h
      rcases hls : learn_step v env rng ag s a k with _ | r
      · rw [hls] at h; exact absurd h (by simp)
      · rw [hls] at h
        obtain ⟨ag3, s3, a3, k3, key⟩ := r
        dsimp only at h
        obtain ⟨ag1, hi, hu⟩ := learn_step_eq hls
        obtain ⟨hkey, hs3, ha3⟩ := inner_learn_legal hi hclosed hs ha
        refine ih ag3 s3 a3 k3 (vis ++ [key]) ag2 k2 vis2 h hs3 ha3 ?_
        intro p hp
        rcases List.mem_append.1 hp with h1 | h1
        · exact hvis p h1
        · have : p = key := by simpa using h1
          rw [this]
          exact hkey

/-- Frame/ghost bookkeeping of `learn`, accumulated over episodes. -/
theorem learn_frame {v : Variant} {env : ObservableEnvironment S A}
    {rng : ℕ → ℚ} {fuel : ℕ} :
    ∀ (num : ℕ) (ag : Agent S A) (s0 : S) (k : ℕ) (vis : List (S × A))
      (ag2 : Agent S A) (k2 : ℕ) (vis2 : List (S × A)),
      learn v env rng fuel ag num s0 k vis = some (ag2, k2, vis2) →
      vis ⊆ vis2 ∧
      (∀ p : S × A, p ∉ vis2 → ag2.Q p = ag.Q p) ∧
      (∀ p : S × A, ¬(p.1 ∈ env.get_states ∧ p.2 ∈ env.get_possible_actions p.1) →
        ag2.policy p = ag.policy p) ∧
      ag2.epsilon = ag.epsilon := by
  intro num
  induction num with
  | zero =>
    intro ag s0 k vis ag2 k2 vis2 h
    simp only [learn, Option.some_inj, Prod.mk.injEq] at h
    obtain ⟨h1, h2, h3⟩ := h
    subst h1; subst h2; subst h3
    exact ⟨List.Subset.refl _, fun p _ => rfl, fun p _ => rfl, rfl⟩
  | succ num ih =>
    intro ag s0 k vis ag2 k2 vis2 h
    simp only [learn] at h
    rcases hc : choose_action env ag s0 (rng k) with _ | a
    · rw [hc] at h; exact absurd h (by simp)
    · rw [hc] at h
      dsimp only at h
      rcases he : episode_loop v env rng fuel ag s0 a (k + 1) vis with _ | r
      · rw [he] at h; exact absurd h (by simp)
      · rw [he] at h
        obtain ⟨ag3, k3, vis3⟩ := r
        dsimp only at h
        obtain ⟨hsub1, hQ1, hpol1, heps1⟩ :=
          episode_loop_frame fuel ag s0 a (k + 1) vis ag3 k3 vis3 he
        obtain ⟨hsub2, hQ2, hpol2, heps2⟩ := ih ag3 s0 k3 vis3 ag2 k2 vis2 h
        refine ⟨fun x hx => hsub2 (hsub1 hx), ?_, ?_, ?_⟩
        · intro p hp
          rw [hQ2 p hp]
          exact hQ1 p (fun hc2 => hp (hsub2 hc2))
        · intro p hp
          rw [hpol2 p hp]
          exact hpol1 p hp
        · rw [heps2, heps1]

/-- For a transition-closed environment and an enumerated start state,
every pair in the final ghost visited list of `learn` is an enumerated
(state, legal action) pair. -/
theorem learn_legal {v : Variant} {env : ObservableEnvironment S A}
    {rng : ℕ → ℚ} {fuel : ℕ}
    (hclosed : ∀ s2 ∈ env.get_states, ∀ a2 ∈ env.get_possible_actions s2,
      (env.execute_action s2 a2).1 ∈ env.get_states) :
    ∀ (num : ℕ) (ag : Agent S A) (s0 : S) (k : ℕ) (vis : List (S × A))
      (ag2 : Agent S A) (k2 : ℕ) (vis2 : List (S × A)),
      learn v env rng fuel ag num s0 k vis = some (ag2, k2, vis2) →
      s0 ∈ env.get_states →
      (∀ p ∈ vis, p.1 ∈ env.get_states ∧ p.2 ∈ env.get_possible_actions p.1) →
      ∀ p ∈ vis2, p.1 ∈ env.get_states ∧ p.2 ∈ env.get_possible_actions p.1 := by
  intro num
  induction num with
  | zero =>
    intro ag s0 k vis ag2 k2 vis2 h _ hvis
    simp only [learn, Option.some_inj, Prod.mk.injEq] at h
    obtain ⟨_, _, h3⟩ := h
    subst h3
    exact hvis
  | succ num ih =>
    intro ag s0 k vis ag2 k2 vis2 h hs0 hvis
    simp only [learn] at h
    rcases hc : choose_action env ag s0 (rng k) with _ | a
    · rw [hc] at h; exact absurd h (by simp)
    · rw [hc] at h
      dsimp only at h
      rcases he : episode_loop v env rng fuel ag s0 a (k + 1) vis with _ | r
      · rw [he] at h; exact absurd h (by simp)
      · rw [he] at h
        obtain ⟨ag3, k3, vis3⟩ := r
        dsimp only at h
        have hvis3 := episode_loop_legal hclosed fuel ag s0 a (k + 1) vis
          ag3 k3 vis3 he hs0 (Or.inr (choose_action_mem hc)) hvis
        exact ih ag3 s0 k3 vis3 ag2 k2 vis2 h hs0 hvis3

/-- Calling `learn` with a terminal initial state performs zero updates
(Q, policy and the ghost visited list are exactly unchanged), yet it
still draws one action from the policy at the terminal initial state
per episode: the random cursor advances by exactly `num`, once per
episode, and the only draw sites are the `_choose_action` calls. -/
theorem learn_terminal_start {v : Variant} {env : ObservableEnvironment S A}
    {rng : ℕ → ℚ} {fuel : ℕ} {ag : Agent S A} {s0 : S}
    (ht : env.is_terminal_state s0 = true)
    (hc : ∀ i : ℕ, (choose_action env ag s0 (rng i)).isSome = true) :
    ∀ (num : ℕ) (k : ℕ) (vis : List (S × A)),
      learn v env rng fuel ag num s0 k vis = some (ag, k + num, vis) := by
  intro num
  induction num with
  | zero => intro k vis; simp [learn]
  | succ num ih =>
    intro k vis
    simp only [learn]
    rcases hca : choose_action env ag s0 (rng k) with _ | a
    · have := hc k
      rw [hca] at this
      exact absurd this (by simp)
    · dsimp only
      rw [episode_loop_terminal fuel ag a (k + 1) vis ht]
      dsimp only
      rw [ih (k + 1) vis]
      have : k + 1 + num = k + (num + 1) := by omega
      rw [this]

/-! ## The policy rows are probability distributions -/

theorem map_sum_const (l : List A) (f : A → ℚ) (c : ℚ)
    (h : ∀ a ∈ l, f a = c) : (l.map f).sum = l.length * c := by
  induction l with
  | nil => simp
  | cons a l ih =>
    simp only [List.map_cons, List.sum_cons, List.length_cons]
    rw [h a (by simp), ih (fun b hb => h b (List.mem_cons_of_mem a hb))]
    push_cast
    ring

theorem map_sum_shape (l : List A) (f : A → ℚ) (c d : ℚ) (b : A)
    (hnd : l.Nodup) (hb : b ∈ l) (hfb : f b = c + d)
    (hother : ∀ a ∈ l, a ≠ b → f a = c) :
    (l.map f).sum = l.length * c + d := by
  induction l with
  | nil => exact absurd hb (by simp)
  | cons x l ih =>
    simp only [List.map_cons, List.sum_cons, List.length_cons]
    rcases List.mem_cons.1 hb with h1 | h1
    · subst h1
      rw [hfb]
      have hnotin : b ∉ l := (List.nodup_cons.1 hnd).1
      rw [map_sum_const l f c
        (fun a ha => hother a (List.mem_cons_of_mem _ ha)
          (fun hc => hnotin (hc ▸ ha)))]
      push_cast
      ring
    · have hx : x ≠ b := fun hc => (List.nodup_cons.1 hnd).1 (hc ▸ h1)
      rw [hother x (List.mem_cons_self _ _) hx,
        ih (List.nodup_cons.1 hnd).2 h1
          (fun a ha hab => hother a (List.mem_cons_of_mem _ ha) hab)]
      push_cast
      ring

/-- The probabilities stored in the policy table for the legal actions
of `s` form a probability distribution: each lies in `[0, 1]` and they
sum to exactly 1 (the embedding works in `ℚ`, so the floating-point
tolerance of the spec becomes exact equality). -/
def valid_dist (env : ObservableEnvironment S A) (ag : Agent S A) (s : S) : Prop :=
  (((env.get_possible_actions s).map (fun a => ag.policy (s, a))).sum = 1) ∧
  ∀ a ∈ env.get_possible_actions s, 0 ≤ ag.policy (s, a) ∧ ag.policy (s, a) ≤ 1

theorem init_agent_valid (env : ObservableEnvironment S A) (df al eps : ℚ)
    (s : S) (hs : s ∈ env.get_states)
    (hne : env.get_possible_actions s ≠ []) :
    valid_dist env (init_agent env df al eps) s := by
  have hlen : 0 < (env.get_possible_actions s).length := List.length_pos.2 hne
  have hlen1 : 1 ≤ (env.get_possible_actions s).length := hlen
  have hlenq : (0 : ℚ) < ((env.get_possible_actions s).length : ℚ) := by
    exact_mod_cast hlen
  constructor
  · rw [map_sum_const _ _ (1 / ((env.get_possible_actions s).length : ℚ))]
    · field_simp
    · intro a ha
      exact init_agent_policy env df al eps (s, a) hs ha
  · intro a ha
    rw [init_agent_policy env df al eps (s, a) hs ha]
    constructor
    · positivity
    · rw [div_le_one hlenq]
      exact_mod_cast hlen1

theorem update_policy_valid {env : ObservableEnvironment S A}
    {ag ag2 : Agent S A} (h : update_policy env ag = some ag2)
    (h0 : 0 ≤ ag.epsilon) (h1 : ag.epsilon ≤ 1) :
    ∀ s ∈ env.get_states, (env.get_possible_actions s).Nodup →
      valid_dist env ag2 s := by
  intro s hs hnd
  obtain ⟨best, hbfind, hbmem, _, hbpol, hother⟩ := update_policy_shape h s hs
  have heps : ag2.epsilon = ag.epsilon := (update_policy_fields h).2.1
  have h0' : 0 ≤ ag2.epsilon := by rw [heps]; exact h0
  have h1' : ag2.epsilon ≤ 1 := by rw [heps]; exact h1
  have hne : env.get_possible_actions s ≠ [] := List.ne_nil_of_mem hbmem
  have hlen : 0 < (env.get_possible_actions s).length := List.length_pos.2 hne
  have hlen1 : 1 ≤ (env.get_possible_actions s).length := hlen
  have hlenq : (0 : ℚ) < ((env.get_possible_actions s).length : ℚ) := by
    exact_mod_cast hlen
  have hlenq1 : (1 : ℚ) ≤ ((env.get_possible_actions s).length : ℚ) := by
    exact_mod_cast hlen1
  constructor
  · rw [map_sum_shape (env.get_possible_actions s) _
      (ag2.epsilon / ((env.get_possible_actions s).length : ℚ))
      (1 - ag2.epsilon) best hnd hbmem (by rw [hbpol]; ring) hother]
    field_simp
  · intro a ha
    have hdivnn : 0 ≤ ag2.epsilon / ((env.get_possible_actions s).length : ℚ) :=
      div_nonneg h0' (le_of_lt hlenq)
    have hdivle : ag2.epsilon / ((env.get_possible_actions s).length : ℚ) ≤
        ag2.epsilon := div_le_self h0' hlenq1
    by_cases hab : a = best
    · subst hab
      rw [hbpol]
      constructor
      · have : 0 ≤ 1 - ag2.epsilon := by linarith
        linarith
      · linarith
    · rw [hother a ha hab]
      exact ⟨hdivnn, le_trans hdivle h1'⟩

theorem episode_loop_valid {v : Variant} {env : ObservableEnvironment S A}
    {rng : ℕ → ℚ} :
    ∀ (fuel : ℕ) (ag : Agent S A) (s : S) (a : A) (k : ℕ) (vis : List (S × A))
      (ag2 : Agent S A) (k2 : ℕ) (vis2 : List (S × A)),
      episode_loop v env rng fuel ag s a k vis = some (ag2, k2, vis2) →
      0 ≤ ag.epsilon → ag.epsilon ≤ 1 →
      (∀ st ∈ env.get_states, (env.get_possible_actions st).Nodup →
        env.get_possible_actions st ≠ [] → valid_dist env ag st) →
      ∀ st ∈ env.get_states, (env.get_possible_actions st).Nodup →
        env.get_possible_actions st ≠ [] → valid_dist env ag2 st := by
  intro fuel
  induction fuel with
  | zero =>
    intro ag s a k vis ag2 k2 vis2 h _ _ hval
    simp only [episode_loop] at h
    by_cases ht : env.is_terminal_state s
    · rw [if_pos ht] at h
      simp only [Option.some_inj, Prod.mk.injEq] at h
      obtain ⟨h1, _, _⟩ := h
      subst h1
      exact hval
    · rw [if_neg ht] at h
      exact absurd h (by simp)
  | succ fuel ih =>
    intro ag s a k vis ag2 k2 vis2 h h0 h1 hval
    simp only [episode_loop] at h
    by_cases ht : env.is_terminal_state s
    · rw [if_pos ht] at h
      simp only [Option.some_inj, Prod.mk.injEq] at h
      obtain ⟨h1b, _, _⟩ := h
      subst h1b
      exact hval
    · rw [if_neg ht] at h
      rcases hls : learn_step v env rng ag s a k with _ | r
      · rw [hls] at h; exact absurd h (by simp)
      · rw [hls] at h
        obtain ⟨ag3, s3, a3, k3, key⟩ := r
        dsimp only at h
        obtain ⟨ag1, hi, hu⟩ := learn_step_eq hls
        have heps1 : ag1.epsilon = ag.epsilon := (inner_learn_fields hi).2.1
        have h01 : 0 ≤ ag1.epsilon := by rw [heps1]; exact h0
        have h11 : ag1.epsilon ≤ 1 := by rw [heps1]; exact h1
        have hval3 : ∀ st ∈ env.get_states,
            (env.get_possible_actions st).Nodup →
            env.get_possible_actions st ≠ [] → valid_dist env ag3 st :=
          fun st hst hnd _ => update_policy_valid hu h01 h11 st hst hnd
        have heps3 : ag3.epsilon = ag.epsilon := by
          rw [(update_policy_fields hu).2.1, heps1]
        exact ih ag3 s3 a3 k3 (vis ++ [key]) ag2 k2 vis2 h
          (by rw [heps3]; exact h0) (by rw [heps3]; exact h1) hval3

theorem learn_valid {v : Variant} {env : ObservableEnvironment S A}
    {rng : ℕ → ℚ} {fuel : ℕ} :
    ∀ (num : ℕ) (ag : Agent S A) (s0 : S) (k : ℕ) (vis : List (S × A))
      (ag2 : Agent S A) (k2 : ℕ) (vis2 : List (S × A)),
      learn v env rng fuel ag num s0 k vis = some (ag2, k2, vis2) →
      0 ≤ ag.epsilon → ag.epsilon ≤ 1 →
      (∀ st ∈ env.get_states, (env.get_possible_actions st).Nodup →
        env.get_possible_actions st ≠ [] → valid_dist env ag st) →
      ∀ st ∈ env.get_states, (env.get_possible_actions st).Nodup →
        env.get_possible_actions st ≠ [] → valid_dist env ag2 st := by
  intro num
  induction num with
  | zero =>
    intro ag s0 k vis ag2 k2 vis2 h _ _ hval
    simp only [learn, Option.some_inj, Prod.mk.injEq] at h
    obtain ⟨h1, _, _⟩ := h
    subst h1
    exact hval
  | succ num ih =>
    intro ag s0 k vis ag2 k2 vis2 h h0 h1 hval
    simp only [learn] at h
    rcases hc : choose_action env ag s0 (rng k) with _ | a
    · rw [hc] at h; exact absurd h (by simp)
    · rw [hc] at h
      dsimp only at h
      rcases he : episode_loop v env rng fuel ag s0 a (k + 1) vis with _ | r
      · rw [he] at h; exact absurd h (by simp)
      · rw [he] at h
        obtain ⟨ag3, k3, vis3⟩ := r
        dsimp only at h
        have hval3 := episode_loop_valid fuel ag s0 a (k + 1) vis ag3 k3 vis3
          he h0 h1 hval
        have heps3 : ag3.epsilon = ag.epsilon :=
          (episode_loop_frame fuel ag s0 a (k + 1) vis ag3 k3 vis3 he).2.2.2
        exact ih ag3 s0 k3 vis3 ag2 k2 vis2 h
          (by rw [heps3]; exact h0) (by rw [heps3]; exact h1) hval3

/-! ## WindyGridWorld lemmas -/

theorem windy_actions_ne_nil (w : WindyGridWorld) (i j : ℕ)
    (hnm : 2 ≤ w.n ∨ 2 ≤ w.m) (hi : i < w.n) (hj : j < w.m) :
    w.get_possible_actions (i, j) ≠ [] := by
  unfold WindyGridWorld.get_possible_actions
  dsimp only
  rcases hnm with h2 | h2
  · by_cases h0 : 0 < i
    · simp [h0]
    · have hdown : i < w.n - 1 := by omega
      simp [hdown]
  · by_cases h0 : 0 < j
    · simp [h0]
    · have hright : j < w.m - 1 := by omega
      simp [hright]

theorem windy_actions_shape_only (w w2 : WindyGridWorld)
    (hn : w2.n = w.n) (hm : w2.m = w.m) (s : ℕ × ℕ) :
    w2.get_possible_actions s = w.get_possible_actions s := by
  unfold WindyGridWorld.get_possible_actions
  rw [hn, hm]

section ClaimsSection

/- The arithmetic of `ℚ` in core/Batteries is marked `irreducible`,
which blocks elaboration-time evaluation of the concrete witness runs
(the kernel itself reduces these definitions fine).  Restore
semireducibility locally so that `decide`/`rfl` can evaluate the
embedding on the concrete environments above. -/
set_option allowUnsafeReducibility true
attribute [local semireducible] Rat.mul Rat.add Rat.sub Rat.div Rat.inv Rat.neg
  Rat.normalize Rat.maybeNormalize Rat.blt

/-! ## The claims -/

/-- C1 counterexample: the claim breaks argmax ties by the iteration
order of the action enumeration, but the source maxes over
`QA.items()` of a Python-2 dict, whose hash-slot order for the action
strings is `DOWN, RIGHT, UP, LEFT`.  On the 3×1 gridworld, one SARSA
learning step from `(0, 0)` updates only `Q[(0,0), DOWN]`, so the Q row
at the untouched state `(1, 0)` is still the all-zero tie over its
legal actions `[UP, DOWN]` (in enumeration order — first conjunct).
The claim therefore predicts `policy[(1,0), UP] = (1-ε) + ε/2`; the
refreshed policy instead gives UP only `ε/2` and boosts DOWN to
`(1-ε) + ε/2`, because the dict items order starts with DOWN. -/
theorem C1_counterexample_tie_break :
    env31.get_possible_actions (1, 0) = [WAction.UP, WAction.DOWN] ∧
    (learn_step .sarsa env31 rng0 ag31 (0, 0) WAction.DOWN 0).map
      (fun res => (res.1.Q ((1, 0), WAction.UP), res.1.Q ((1, 0), WAction.DOWN),
        res.1.policy ((1, 0), WAction.UP), res.1.policy ((1, 0), WAction.DOWN)))
      = some (0, 0, 1 / 20 / 2, (1 - 1 / 20) + 1 / 20 / 2) := by
  exact ⟨by decide, by decide⟩

/-- C1 amended: after every single learning step (`_inner_learn`
immediately followed by `_update_policy`, which is exactly the loop
body of `learn`), the policy table is refreshed at every state of the
environment — not only the visited one — and at each state `s` it has
the epsilon-greedy shape: `policy[s, best] = (1-ε) + ε/|A(s)|` where
`best` is the argmax of `Q[s,-]` over the legal actions with ties
broken in favour of the first action in the Python-2 dict items order
of the legal-action keys (hash-slot order `DOWN, RIGHT, UP, LEFT` for
the gridworld's strings) — not the `get_possible_actions` enumeration
order — and `policy[s, a] = ε/|A(s)|` for every other legal action
`a`; the epsilon is the agent's unchanged `epsilon` parameter. -/
theorem C1_amended_policy_refresh_eps_greedy (v : Variant)
    (env : ObservableEnvironment S A) (rng : ℕ → ℚ) (ag : Agent S A)
    (s : S) (a : A) (k : ℕ)
    (h : (learn_step v env rng ag s a k).isSome = true) :
    ∃ res, learn_step v env rng ag s a k = some res ∧
      res.1.epsilon = ag.epsilon ∧
      ∀ st ∈ env.get_states, eps_greedy_shape env res.1 st := by
  obtain ⟨res, hres⟩ := Option.isSome_iff_exists.1 h
  obtain ⟨ag1, hi, hu⟩ := learn_step_eq hres
  refine ⟨res, hres, ?_, update_policy_shape hu⟩
  rw [(update_policy_fields hu).2.1, (inner_learn_fields hi).2.1]

theorem C1_amended_policy_refresh_eps_greedy_witness :
    ∃ res, learn_step .sarsa env31 rng0 ag31 (0, 0) WAction.DOWN 0 = some res ∧
      res.1.epsilon = ag31.epsilon ∧
      ∀ st ∈ env31.get_states, eps_greedy_shape env31 res.1 st :=
  C1_amended_policy_refresh_eps_greedy .sarsa env31 rng0 ag31 (0, 0)
    WAction.DOWN 0 (by decide)

/-- C2: for every state with legal actions, the policy entries over the
legal actions form a probability distribution (each in `[0,1]`, summing
to exactly 1 in the `ℚ` embedding) immediately after construction,
after every policy refresh, and after any `learn` run started from a
freshly constructed agent — for every variant, since construction and
the refresh are shared code. -/
theorem C2_policy_rows_are_distributions (v : Variant)
    (env : ObservableEnvironment S A) (rng : ℕ → ℚ) (fuel : ℕ)
    (df al eps : ℚ) (ag : Agent S A) (num : ℕ) (s0 : S) (k : ℕ)
    (h0 : 0 ≤ eps) (h1 : eps ≤ 1)
    (h0a : 0 ≤ ag.epsilon) (h1a : ag.epsilon ≤ 1)
    (hlearn : (learn v env rng fuel (init_agent env df al eps) num s0 k []).isSome
      = true)
    (hup : (update_policy env ag).isSome = true) :
    (∀ s ∈ env.get_states, (env.get_possible_actions s).Nodup →
      env.get_possible_actions s ≠ [] →
      valid_dist env (init_agent env df al eps) s) ∧
    (∃ ag2, update_policy env ag = some ag2 ∧
      ∀ s ∈ env.get_states, (env.get_possible_actions s).Nodup →
        valid_dist env ag2 s) ∧
    (∃ ag2 k2 vis2,
      learn v env rng fuel (init_agent env df al eps) num s0 k [] =
        some (ag2, k2, vis2) ∧
      ∀ s ∈ env.get_states, (env.get_possible_actions s).Nodup →
        env.get_possible_actions s ≠ [] → valid_dist env ag2 s) := by
  refine ⟨fun s hs _ hne => init_agent_valid env df al eps s hs hne, ?_, ?_⟩
  · obtain ⟨ag2, hag2⟩ := Option.isSome_iff_exists.1 hup
    exact ⟨ag2, hag2, update_policy_valid hag2 h0a h1a⟩
  · obtain ⟨r, hr⟩ := Option.isSome_iff_exists.1 hlearn
    obtain ⟨ag2, k2, vis2⟩ := r
    refine ⟨ag2, k2, vis2, hr, ?_⟩
    exact learn_valid num (init_agent env df al eps) s0 k [] ag2 k2 vis2 hr
      h0 h1 (fun st hst hnd hne => init_agent_valid env df al eps st hst hne)

theorem C2_policy_rows_are_distributions_witness :
    (∀ s ∈ env12.get_states, (env12.get_possible_actions s).Nodup →
      env12.get_possible_actions s ≠ [] →
      valid_dist env12 (init_agent env12 1 (2 / 5) (1 / 20)) s) ∧
    (∃ ag2, update_policy env12 ag12 = some ag2 ∧
      ∀ s ∈ env12.get_states, (env12.get_possible_actions s).Nodup →
        valid_dist env12 ag2 s) ∧
    (∃ ag2 k2 vis2,
      learn .sarsa env12 rng0 3 (init_agent env12 1 (2 / 5) (1 / 20)) 1 (0, 0) 0 []
        = some (ag2, k2, vis2) ∧
      ∀ s ∈ env12.get_states, (env12.get_possible_actions s).Nodup →
        env12.get_possible_actions s ≠ [] → valid_dist env12 ag2 s) :=
  C2_policy_rows_are_distributions .sarsa env12 rng0 3 1 (2 / 5) (1 / 20) ag12
    1 (0, 0) 0 (by decide) (by decide) (by decide) (by decide) (by decide)
    (by decide)

/-- C3: one SARSA learning step on `(S, A)` executes `A` to observe
`(S_next, R)`, samples `A_next` from the current policy at `S_next`,
applies exactly `Q[S,A] += α·(R + γ·Q[S_next,A_next] − Q[S,A])` with no
other change to Q (and none to the policy), and returns
`(S_next, A_next)` to the driver, which continues the episode from
exactly that returned pair. -/
theorem C3_sarsa_inner_learn_spec (env : ObservableEnvironment S A)
    (rng : ℕ → ℚ) (ag : Agent S A) (s : S) (a : A) (k : ℕ)
    (h : (inner_learn .sarsa env rng ag s a k).isSome = true) :
    ∃ res, inner_learn .sarsa env rng ag s a k = some res ∧
      sarsa_step_spec env rng ag s a k res ∧
      ∀ (fuel : ℕ) (vis : List (S × A))
        (res2 : Agent S A × S × A × ℕ × (S × A)),
        env.is_terminal_state s = false →
        learn_step .sarsa env rng ag s a k = some res2 →
        episode_loop .sarsa env rng (fuel + 1) ag s a k vis =
          episode_loop .sarsa env rng fuel res2.1 res2.2.1 res2.2.2.1
            res2.2.2.2.1 (vis ++ [res2.2.2.2.2]) := by
  obtain ⟨res, hres⟩ := Option.isSome_iff_exists.1 h
  refine ⟨res, hres, inner_learn_sarsa hres, ?_⟩
  intro fuel vis res2 hnt hstep
  obtain ⟨ag2, s2, a2, k2, key⟩ := res2
  simp only [episode_loop, hnt, Bool.false_eq_true, if_false, hstep]

theorem C3_sarsa_inner_learn_spec_witness :
    ∃ res, inner_learn .sarsa env12 rng0 ag12 (0, 0) WAction.RIGHT 0 = some res ∧
      sarsa_step_spec env12 rng0 ag12 (0, 0) WAction.RIGHT 0 res ∧
      ∀ (fuel : ℕ) (vis : List ((ℕ × ℕ) × WAction))
        (res2 : Agent (ℕ × ℕ) WAction × (ℕ × ℕ) × WAction × ℕ × ((ℕ × ℕ) × WAction)),
        env12.is_terminal_state (0, 0) = false →
        learn_step .sarsa env12 rng0 ag12 (0, 0) WAction.RIGHT 0 = some res2 →
        episode_loop .sarsa env12 rng0 (fuel + 1) ag12 (0, 0) WAction.RIGHT 0 vis =
          episode_loop .sarsa env12 rng0 fuel res2.1 res2.2.1 res2.2.2.1
            res2.2.2.2.1 (vis ++ [res2.2.2.2.2]) :=
  C3_sarsa_inner_learn_spec env12 rng0 ag12 (0, 0) WAction.RIGHT 0 (by decide)

/-- C4: one Q-Learning learning step at `S` ignores the incoming action
entirely (the result is the same for any passed `A`), samples a fresh
action `A'` from the current policy at `S`, executes it, bootstraps
from `Q[S_next, A_best]` where `A_best` is the argmax of `Q[S_next,-]`
over the legal actions, applies the blended update to `Q[S, A']` only,
and returns `(S_next, A')` — the freshly sampled action, not
`A_best`. -/
theorem C4_qlearning_inner_learn_spec (env : ObservableEnvironment S A)
    (rng : ℕ → ℚ) (ag : Agent S A) (s : S) (a : A) (k : ℕ)
    (h : (inner_learn .qlearning env rng ag s a k).isSome = true) :
    (∀ a3 : A, inner_learn .qlearning env rng ag s a3 k =
      inner_learn .qlearning env rng ag s a k) ∧
    ∃ res, inner_learn .qlearning env rng ag s a k = some res ∧
      qlearning_step_spec env rng ag s k res := by
  obtain ⟨res, hres⟩ := Option.isSome_iff_exists.1 h
  exact ⟨fun a3 => rfl, res, hres, inner_learn_qlearning hres⟩

theorem C4_qlearning_inner_learn_spec_witness :
    (∀ a3 : WAction, inner_learn .qlearning env12 rng0 ag12 (0, 0) a3 0 =
      inner_learn .qlearning env12 rng0 ag12 (0, 0) WAction.RIGHT 0) ∧
    ∃ res, inner_learn .qlearning env12 rng0 ag12 (0, 0) WAction.RIGHT 0 =
        some res ∧
      qlearning_step_spec env12 rng0 ag12 (0, 0) 0 res :=
  C4_qlearning_inner_learn_spec env12 rng0 ag12 (0, 0) WAction.RIGHT 0
    (by decide)

/-- C5: one Expected SARSA learning step on `(S, A)` executes `A` to
observe `(S_next, R)`, samples `A_next` from the current policy at
`S_next`, applies the blended update to `Q[S, A]` with TD target
`R + γ·Σ_a policy[S_next, a]·Q[S_next, a]` summed over the legal
actions of `S_next`, changes nothing else, and returns
`(S_next, A_next)`. -/
theorem C5_expected_sarsa_inner_learn_spec (env : ObservableEnvironment S A)
    (rng : ℕ → ℚ) (ag : Agent S A) (s : S) (a : A) (k : ℕ)
    (h : (inner_learn .expectedSarsa env rng ag s a k).isSome = true) :
    ∃ res, inner_learn .expectedSarsa env rng ag s a k = some res ∧
      expected_sarsa_step_spec env rng ag s a k res := by
  obtain ⟨res, hres⟩ := Option.isSome_iff_exists.1 h
  exact ⟨res, hres, inner_learn_expected hres⟩

theorem C5_expected_sarsa_inner_learn_spec_witness :
    ∃ res, inner_learn .expectedSarsa env12 rng0 ag12 (0, 0) WAction.RIGHT 0 =
        some res ∧
      expected_sarsa_step_spec env12 rng0 ag12 (0, 0) WAction.RIGHT 0 res :=
  C5_expected_sarsa_inner_learn_spec env12 rng0 ag12 (0, 0) WAction.RIGHT 0
    (by decide)

/-- C6 counterexample: starting `learn` at the terminal state `(0, 1)`
of the 1×2 gridworld performs zero TD updates (the ghost visited list
stays empty and the returned agent is untouched), yet the random cursor
advances from 0 to 1: exactly one categorical draw was consumed, and
the only draw site reached is `_choose_action` at the terminal initial
state — `learn` draws `A = self._choose_action(S)` before testing the
loop condition.  The concrete action sampled at the terminal state is
LEFT.  This refutes the part of the claim stating that no action is
ever sampled from the policy at the terminal initial state. -/
theorem C6_counterexample_samples_at_terminal :
    env12.is_terminal_state (0, 1) = true ∧
    choose_action env12 ag12 (0, 1) (rng0 0) = some WAction.LEFT ∧
    (learn .sarsa env12 rng0 2 ag12 1 (0, 1) 0 []).map
      (fun r => (r.2.1, r.2.2)) = some (1, []) := by
  refine ⟨by decide, by decide, by decide⟩

/-- C6 amended: starting `learn` with a terminal `initial_state`
performs zero TD update steps — Q, policy and the ghost visited record
are exactly unchanged — but `learn` does still sample one action from
the policy at the terminal initial state per episode (the selection
happens before the loop's terminal test), advancing the random cursor
by exactly `num`. -/
theorem C6_amended_terminal_start (v : Variant)
    (env : ObservableEnvironment S A) (rng : ℕ → ℚ) (fuel : ℕ)
    (ag : Agent S A) (s0 : S) (num k : ℕ) (vis : List (S × A))
    (ht : env.is_terminal_state s0 = true)
    (hc : ∀ i : ℕ, (choose_action env ag s0 (rng i)).isSome = true) :
    learn v env rng fuel ag num s0 k vis = some (ag, k + num, vis) :=
  learn_terminal_start ht hc num k vis

theorem C6_amended_terminal_start_witness :
    learn .sarsa env12 rng0 2 ag12 3 (0, 1) 0 [] = some (ag12, 0 + 3, []) :=
  C6_amended_terminal_start .sarsa env12 rng0 2 ag12 (0, 1) 3 0 []
    (by decide) (fun i => rfl)

/-- C7 counterexample: on an environment interface instance whose
state 1 is terminal with an empty legal-action set and is the successor
of every transition from state 0, one `_inner_learn` step from state 0
fails (raises, embedded as `none`) for all three variants instead of
treating the argmax/expectation over the empty successor action set as
0: SARSA and Expected SARSA fail sampling `A_next` at the successor,
Q-Learning fails in the argmax.  This refutes the part of the claim
stating that an empty successor action set is handled by a 0
convention rather than failing. -/
theorem C7_counterexample_empty_successor_fails :
    envE2.is_terminal_state 1 = true ∧
    envE2.get_possible_actions 1 = [] ∧
    (envE2.execute_action 0 0).1 = 1 ∧
    inner_learn .sarsa envE2 rng0 agE2 0 0 0 = none ∧
    inner_learn .qlearning envE2 rng0 agE2 0 0 0 = none ∧
    inner_learn .expectedSarsa envE2 rng0 agE2 0 0 0 = none := by
  refine ⟨by decide, by decide, by decide, rfl, rfl, rfl⟩

/-- C7 amended: (i) when a step reaches a terminal `S_next`, the driver
still performs that one final TD update before the episode loop exits —
the loop condition is tested at the top of each iteration against the
current state `S`, not `S_next`, so the loop runs the body once more
and then stops; (ii) if the successor state's legal-action set is
empty, the step does not treat the argmax/expectation over the empty
set as 0: it fails (embedded as `none`) — SARSA and Expected SARSA fail
when sampling `A_next` at the successor, Q-Learning fails in
`_find_best_action`. -/
theorem C7_amended_final_update_and_empty_fails (v : Variant)
    (env : ObservableEnvironment S A) (rng : ℕ → ℚ) (ag : Agent S A)
    (s : S) (a : A) (k : ℕ)
    (hnt : env.is_terminal_state s = false)
    (h : (learn_step v env rng ag s a k).isSome = true) :
    (∃ res, learn_step v env rng ag s a k = some res ∧
      (env.is_terminal_state res.2.1 = true →
        ∀ (fuel : ℕ) (vis : List (S × A)),
          episode_loop v env rng (fuel + 1) ag s a k vis =
            some (res.1, res.2.2.2.1, vis ++ [res.2.2.2.2]))) ∧
    (∀ (s2 : S) (a2 : A),
      env.get_possible_actions (env.execute_action s2 a2).1 = [] →
        inner_learn .sarsa env rng ag s2 a2 k = none ∧
        inner_learn .expectedSarsa env rng ag s2 a2 k = none) ∧
    (∀ (s2 : S) (a2 a3 : A),
      choose_action env ag s2 (rng k) = some a3 →
      env.get_possible_actions (env.execute_action s2 a3).1 = [] →
        inner_learn .qlearning env rng ag s2 a2 k = none) := by
  refine ⟨?_, ?_, ?_⟩
  · obtain ⟨res, hres⟩ := Option.isSome_iff_exists.1 h
    refine ⟨res, hres, ?_⟩
    intro hterm fuel vis
    obtain ⟨ag2, s2, a2, k2, key⟩ := res
    simp only [episode_loop, hnt, Bool.false_eq_true, if_false, hres]
    try dsimp only
    exact episode_loop_terminal fuel ag2 a2 k2 (vis ++ [key]) hterm
  · intro s2 a2 hempty
    constructor
    · simp only [inner_learn]
      rw [choose_action_empty hempty]
    · simp only [inner_learn]
      rw [choose_action_empty hempty]
  · intro s2 a2 a3 hc hempty
    simp only [inner_learn]
    rw [hc]
    try dsimp only
    rw [find_best_action_empty hempty]

theorem C7_amended_final_update_and_empty_fails_witness :
    (∃ res, learn_step .sarsa env12 rng0 ag12 (0, 0) WAction.RIGHT 0 = some res ∧
      (env12.is_terminal_state res.2.1 = true →
        ∀ (fuel : ℕ) (vis : List ((ℕ × ℕ) × WAction)),
          episode_loop .sarsa env12 rng0 (fuel + 1) ag12 (0, 0) WAction.RIGHT 0 vis =
            some (res.1, res.2.2.2.1, vis ++ [res.2.2.2.2]))) ∧
    (∀ (s2 : ℕ × ℕ) (a2 : WAction),
      env12.get_possible_actions (env12.execute_action s2 a2).1 = [] →
        inner_learn .sarsa env12 rng0 ag12 s2 a2 0 = none ∧
        inner_learn .expectedSarsa env12 rng0 ag12 s2 a2 0 = none) ∧
    (∀ (s2 : ℕ × ℕ) (a2 a3 : WAction),
      choose_action env12 ag12 s2 (rng0 0) = some a3 →
      env12.get_possible_actions (env12.execute_action s2 a3).1 = [] →
        inner_learn .qlearning env12 rng0 ag12 s2 a2 0 = none) :=
  C7_amended_final_update_and_empty_fails .sarsa env12 rng0 ag12 (0, 0)
    WAction.RIGHT 0 (by decide) (by decide)

/-- C8: with the injected random stream made an explicit argument of
the embedding (the only nondeterminism of the source, consumed solely
by `_choose_action`), two runs of construction followed by `learn` with
identical parameters and identical streams produce identical results —
in particular identical Q tables and identical policy tables. -/
theorem C8_determinism (v : Variant) (env : ObservableEnvironment S A)
    (df al eps : ℚ) (rng1 rng2 : ℕ → ℚ) (fuel num : ℕ) (s0 : S) (k : ℕ)
    (h : rng1 = rng2) :
    learn v env rng1 fuel (init_agent env df al eps) num s0 k [] =
      learn v env rng2 fuel (init_agent env df al eps) num s0 k [] ∧
    (learn v env rng1 fuel (init_agent env df al eps) num s0 k []).map
        (fun r => r.1.Q) =
      (learn v env rng2 fuel (init_agent env df al eps) num s0 k []).map
        (fun r => r.1.Q) ∧
    (learn v env rng1 fuel (init_agent env df al eps) num s0 k []).map
        (fun r => r.1.policy) =
      (learn v env rng2 fuel (init_agent env df al eps) num s0 k []).map
        (fun r => r.1.policy) := by
  rw [h]
  exact ⟨rfl, rfl, rfl⟩

theorem C8_determinism_witness :
    learn .sarsa env12 rng0 3 (init_agent env12 1 (2 / 5) (1 / 20)) 1 (0, 0) 0 [] =
      learn .sarsa env12 rng0 3 (init_agent env12 1 (2 / 5) (1 / 20)) 1 (0, 0) 0 [] ∧
    (learn .sarsa env12 rng0 3 (init_agent env12 1 (2 / 5) (1 / 20)) 1 (0, 0) 0 []).map
        (fun r => r.1.Q) =
      (learn .sarsa env12 rng0 3 (init_agent env12 1 (2 / 5) (1 / 20)) 1 (0, 0) 0 []).map
        (fun r => r.1.Q) ∧
    (learn .sarsa env12 rng0 3 (init_agent env12 1 (2 / 5) (1 / 20)) 1 (0, 0) 0 []).map
        (fun r => r.1.policy) =
      (learn .sarsa env12 rng0 3 (init_agent env12 1 (2 / 5) (1 / 20)) 1 (0, 0) 0 []).map
        (fun r => r.1.policy) :=
  C8_determinism .sarsa env12 1 (2 / 5) (1 / 20) rng0 rng0 3 1 (0, 0) 0 rfl

/-- C9: immediately after construction `Q[s,a] = 0` (indeed the whole
table function is 0) and `policy[s,a] = 1/|A(s)|` for every enumerated
pair; and after a `learn` run, every pair outside the ghost visited
list — the record of exactly the pairs subjected to a TD update — still
has `Q = 0`; for a transition-closed environment every visited pair is
an enumerated pair, and policy entries outside the enumerated
state-action space are never touched, so no table entries are
effectively added or removed after construction. -/
theorem C9_init_and_frame (v : Variant) (env : ObservableEnvironment S A)
    (rng : ℕ → ℚ) (fuel : ℕ) (df al eps : ℚ) (num : ℕ) (s0 : S) (k : ℕ)
    (hclosed : ∀ s2 ∈ env.get_states, ∀ a2 ∈ env.get_possible_actions s2,
      (env.execute_action s2 a2).1 ∈ env.get_states)
    (hs0 : s0 ∈ env.get_states)
    (h : (learn v env rng fuel (init_agent env df al eps) num s0 k []).isSome
      = true) :
    (∀ p : S × A, (init_agent env df al eps).Q p = 0) ∧
    (∀ p : S × A, p.1 ∈ env.get_states → p.2 ∈ env.get_possible_actions p.1 →
      (init_agent env df al eps).policy p =
        1 / ((env.get_possible_actions p.1).length : ℚ)) ∧
    ∃ ag2 k2 vis2,
      learn v env rng fuel (init_agent env df al eps) num s0 k [] =
        some (ag2, k2, vis2) ∧
      (∀ p : S × A, p ∉ vis2 → ag2.Q p = 0) ∧
      (∀ p ∈ vis2, p.1 ∈ env.get_states ∧ p.2 ∈ env.get_possible_actions p.1) ∧
      (∀ p : S × A,
        ¬(p.1 ∈ env.get_states ∧ p.2 ∈ env.get_possible_actions p.1) →
        ag2.policy p = (init_agent env df al eps).policy p) := by
  refine ⟨init_agent_Q env df al eps,
    fun p h1 h2 => init_agent_policy env df al eps p h1 h2, ?_⟩
  obtain ⟨r, hr⟩ := Option.isSome_iff_exists.1 h
  obtain ⟨ag2, k2, vis2⟩ := r
  obtain ⟨_, hQ, hpol, _⟩ :=
    learn_frame num (init_agent env df al eps) s0 k [] ag2 k2 vis2 hr
  refine ⟨ag2, k2, vis2, hr, ?_, ?_, hpol⟩
  · intro p hp
    rw [hQ p hp]
    exact init_agent_Q env df al eps p
  · exact learn_legal hclosed num (init_agent env df al eps) s0 k [] ag2 k2
      vis2 hr hs0 (fun p hp => absurd hp (by simp))

theorem C9_init_and_frame_witness :
    (∀ p : (ℕ × ℕ) × WAction, (init_agent env12 1 (2 / 5) (1 / 20)).Q p = 0) ∧
    (∀ p : (ℕ × ℕ) × WAction, p.1 ∈ env12.get_states →
      p.2 ∈ env12.get_possible_actions p.1 →
      (init_agent env12 1 (2 / 5) (1 / 20)).policy p =
        1 / ((env12.get_possible_actions p.1).length : ℚ)) ∧
    ∃ ag2 k2 vis2,
      learn .sarsa env12 rng0 3 (init_agent env12 1 (2 / 5) (1 / 20)) 1 (0, 0) 0 []
        = some (ag2, k2, vis2) ∧
      (∀ p : (ℕ × ℕ) × WAction, p ∉ vis2 → ag2.Q p = 0) ∧
      (∀ p ∈ vis2, p.1 ∈ env12.get_states ∧
        p.2 ∈ env12.get_possible_actions p.1) ∧
      (∀ p : (ℕ × ℕ) × WAction,
        ¬(p.1 ∈ env12.get_states ∧ p.2 ∈ env12.get_possible_actions p.1) →
        ag2.policy p = (init_agent env12 1 (2 / 5) (1 / 20)).policy p) :=
  C9_init_and_frame .sarsa env12 rng0 3 1 (2 / 5) (1 / 20) 1 (0, 0) 0
    (by decide) (by decide) (by decide)

/-- C10: for a WindyGridWorld with at least two rows or at least two
columns, `get_possible_actions` returns a nonempty list at every state
of the grid — including terminal states, because the action list
depends only on the grid shape `(n, m)` and never reads the rewards
(hence never consults terminality): two gridworlds with the same shape
but arbitrary rewards and wind have identical action lists at every
state.  Being a pure function of the state, it also returns the same
list (same elements, same order) on every call. -/
theorem C10_gridworld_actions (w : WindyGridWorld) (i j : ℕ)
    (hnm : 2 ≤ w.n ∨ 2 ≤ w.m) (hi : i < w.n) (hj : j < w.m) :
    w.get_possible_actions (i, j) ≠ [] ∧
    (∀ w2 : WindyGridWorld, w2.n = w.n → w2.m = w.m →
      w2.get_possible_actions (i, j) = w.get_possible_actions (i, j)) ∧
    w.toEnv.get_possible_actions (i, j) = w.get_possible_actions (i, j) := by
  exact ⟨windy_actions_ne_nil w i j hnm hi hj,
    fun w2 hn hm => windy_actions_shape_only w w2 hn hm (i, j), rfl⟩

theorem C10_gridworld_actions_witness :
    w12.get_possible_actions (0, 1) ≠ [] ∧
    (∀ w2 : WindyGridWorld, w2.n = w12.n → w2.m = w12.m →
      w2.get_possible_actions (0, 1) = w12.get_possible_actions (0, 1)) ∧
    w12.toEnv.get_possible_actions (0, 1) = w12.get_possible_actions (0, 1) :=
  C10_gridworld_actions w12 0 1 (Or.inr (by decide)) (by decide) (by decide)

end ClaimsSection

end TDLearning
